import Mathlib

/-!
Verification of the cluely-lite planning pipeline (`python/src/server.py`).

The Python functions `validate_tool`, `parse_tool_json`, `heuristic_tool`,
`first_title_matching`, `fallback_tool`, `normalize_tool_with_snapshot`,
`query_ollama` and `plan_action` are shallowly embedded over a model
`Value` of Python/JSON values.

Modelling notes:

* Python dicts are association lists with unique keys in insertion order;
  `objInsert` mirrors `d[k] = v` (update in place, else append), which is
  also how the JSON decoder resolves duplicate keys.
* `str.lower`, `str.strip` and `str.isalpha` are modelled on their ASCII
  behaviour; the unicode extensions are not exercised by any claim.
* Numeric JSON literals are modelled as arbitrary-precision integers;
  floating point is out of scope of the embedding.
* Functions that can raise in Python are embedded with an explicit error
  result (`Except Unit _`, or a `Bool` "raised" flag where the source
  catches the exception itself, as in `normalize_tool_with_snapshot`).
* The network transport of `query_ollama` is supplied as a parameter
  (`Except String String`: either a connection/decode failure detail or
  the raw model response text); everything after the transport is
  embedded from the source.
-/

/-- Model of the Python/JSON values flowing through the pipeline. -/
inductive Value : Type where
  | vNull : Value
  | vBool : Bool → Value
  | vInt : Int → Value
  | vStr : String → Value
  | vArr : List Value → Value
  | vObj : List (String × Value) → Value

/-- Python `d.get(k)` on the underlying association list (first binding). -/
def objLookup : List (String × Value) → String → Option Value
  | [], _ => none
  | (k, v) :: fs, key => if k = key then some v else objLookup fs key

/-- Python `d[k] = v`: replace the first binding in place, else append. -/
def objInsert : List (String × Value) → String → Value → List (String × Value)
  | [], key, v => [(key, v)]
  | (k, w) :: fs, key, v =>
      if k = key then (k, v) :: fs else (k, w) :: objInsert fs key v

/-- Python truthiness of a value. -/
def pyTruthy : Value → Bool
  | .vNull => false
  | .vBool b => b
  | .vInt n => !(n == 0)
  | .vStr s => !(s == "")
  | .vArr xs => !xs.isEmpty
  | .vObj fs => !fs.isEmpty

/-- Python `a or b`. -/
def pyOr (a b : Value) : Value := if pyTruthy a then a else b

/-- The apostrophe character (written via its code point). -/
def apos : Char := Char.ofNat 39

/-- The whitespace characters stripped by Python `str.strip()` (ASCII part). -/
def isPyWs (c : Char) : Bool :=
  c = ' ' || c = '\t' || c = '\n' || c = '\r' || c = '\x0b' || c = '\x0c'

/-- Python `str.strip()` (ASCII whitespace model). -/
def pyStrip (s : String) : String :=
  ⟨((s.data.dropWhile isPyWs).reverse.dropWhile isPyWs).reverse⟩

/-- Python `str.strip(chars)`. -/
def pyStripChars (bad : List Char) (s : String) : String :=
  ⟨((s.data.dropWhile (bad.contains ·)).reverse.dropWhile (bad.contains ·)).reverse⟩

/-- Python `str.lower()` (ASCII model). -/
def pyLower (s : String) : String := ⟨s.data.map Char.toLower⟩

/-- Does the first character list start with the second? -/
def leadsWith : List Char → List Char → Bool
  | _, [] => true
  | [], _ :: _ => false
  | c :: cs, d :: ds => c = d && leadsWith cs ds

/-- Python `needle in hay` substring test, on character lists. -/
def hasSubL (hay needle : List Char) : Bool :=
  match hay with
  | [] => needle.isEmpty
  | c :: cs => leadsWith (c :: cs) needle || hasSubL cs needle

/-- Python `needle in hay` substring test. -/
def hasSub (hay needle : String) : Bool := hasSubL hay.data needle.data

/-- Decimal digits of `n`, least significant first (fuelled). -/
def natToRevDigits : Nat → Nat → List Char
  | 0, _ => []
  | f + 1, n =>
      if n = 0 then [] else Char.ofNat (48 + n % 10) :: natToRevDigits f (n / 10)

/-- Decimal rendering of a natural number. -/
def natToStr (n : Nat) : List Char :=
  if n = 0 then ['0'] else (natToRevDigits (n + 1) n).reverse

/-- Decimal rendering of an integer (Python `str(int)`). -/
def intToStr : Int → List Char
  | .ofNat n => natToStr n
  | .negSucc m => '-' :: natToStr (m + 1)

/-- Body of the simplified Python string `repr`: escape the backslash, the
chosen quote, newline, carriage return and tab; other characters are kept
verbatim (CPython's control/unicode escapes are not exercised by any
claim). -/
def reprStrBody (q : Char) : List Char → List Char
  | [] => []
  | c :: cs =>
      (if c = '\\' then ['\\', '\\']
       else if c = q then ['\\', q]
       else if c = '\n' then ['\\', 'n']
       else if c = '\r' then ['\\', 'r']
       else if c = '\t' then ['\\', 't']
       else [c]) ++ reprStrBody q cs

/-- Simplified Python `repr` of a string: single quotes, unless the string
contains a single quote and no double quote. -/
def pyReprStr (s : String) : String :=
  let q : Char := if s.data.contains apos && !s.data.contains '"' then '"' else apos
  ⟨q :: (reprStrBody q s.data ++ [q])⟩

mutual

/-- Python `repr` of a value (container rendering used by `str`). -/
def pyRepr : Value → String
  | .vNull => "None"
  | .vBool true => "True"
  | .vBool false => "False"
  | .vInt n => ⟨intToStr n⟩
  | .vStr s => pyReprStr s
  | .vArr xs => "[" ++ pyReprElems xs ++ "]"
  | .vObj fs => "\x7b" ++ pyReprFields fs ++ "\x7d"

/-- Comma-separated `repr` of list elements. -/
def pyReprElems : List Value → String
  | [] => ""
  | [x] => pyRepr x
  | x :: y :: xs => pyRepr x ++ ", " ++ pyReprElems (y :: xs)

/-- Comma-separated `repr` of dict items. -/
def pyReprFields : List (String × Value) → String
  | [] => ""
  | [(k, v)] => pyReprStr k ++ ": " ++ pyRepr v
  | (k, v) :: f :: fs => pyReprStr k ++ ": " ++ pyRepr v ++ ", " ++ pyReprFields (f :: fs)

end

/-- Python `str(value)`. -/
def pyStr : Value → String
  | .vStr s => s
  | v => pyRepr v

/-- `ALLOWED_ACTIONS` from the source. -/
def ALLOWED_ACTIONS : List String := ["answer", "click", "type", "focus"]

/-- `validate_tool`'s `target` rule: `str` of the value when present and
non-null, else the explicit `None` marker. -/
def coerceTarget : Option Value → Value
  | some .vNull => Value.vNull
  | some t => .vStr (pyStr t)
  | none => Value.vNull

/-- `validate_tool`'s `text` rule: `str` of the value when present and
non-null, else the empty string. -/
def coerceText : Option Value → Value
  | some .vNull => .vStr ""
  | some t => .vStr (pyStr t)
  | none => .vStr ""

/-- `obj['action'] = action` step of `validate_tool`. -/
def setActionF (fs : List (String × Value)) (act : String) : List (String × Value) :=
  objInsert fs "action" (.vStr act)

/-- The `target` normalisation step of `validate_tool` (both branches of
the Python `if` assign `obj['target']`). -/
def setTargetF (fs : List (String × Value)) : List (String × Value) :=
  objInsert fs "target" (coerceTarget (objLookup fs "target"))

/-- The `text` normalisation step of `validate_tool`. -/
def setTextF (fs : List (String × Value)) : List (String × Value) :=
  objInsert fs "text" (coerceText (objLookup fs "text"))

/-- Embedding of `validate_tool` (server.py:456-483).  The Python function
mutates its argument and returns a `bool`; the embedding returns the pair
(result, final state of the argument). -/
def validate_tool : Value → Bool × Value
  | .vObj fs =>
      match objLookup fs "action" with
      | some (.vStr a) =>
          let act := pyStrip (pyLower a)
          if act ∈ ALLOWED_ACTIONS then
            (true, .vObj (setTextF (setTargetF (setActionF fs act))))
          else (false, .vObj fs)
      | _ => (false, .vObj fs)
  | v => (false, v)

/-! JSON decoding (`json.loads`), modelled as a fuelled recursive descent
over character lists.  CPython specifics kept: RFC-8259 whitespace, strict
strings (raw control characters rejected), the `0`-or-nonzero-digit
integer rule, no trailing commas.  Floats, `NaN`/`Infinity` and lone
surrogates are outside the model (no claim exercises them). -/

/-- JSON whitespace. -/
def isJsonWs (c : Char) : Bool := c = ' ' || c = '\t' || c = '\n' || c = '\r'

/-- Drop leading JSON whitespace. -/
def skipWs : List Char → List Char
  | [] => []
  | c :: cs => if isJsonWs c then skipWs cs else c :: cs

/-- Value of a hexadecimal digit. -/
def hexVal (c : Char) : Option Nat :=
  if '0' ≤ c ∧ c ≤ '9' then some (c.toNat - 48)
  else if 'a' ≤ c ∧ c ≤ 'f' then some (c.toNat - 87)
  else if 'A' ≤ c ∧ c ≤ 'F' then some (c.toNat - 55)
  else none

/-- Value of four hexadecimal digits. -/
def hex4 (a b c d : Char) : Option Nat := do
  let x ← hexVal a
  let y ← hexVal b
  let z ← hexVal c
  let w ← hexVal d
  pure (((x * 16 + y) * 16 + z) * 16 + w)

/-- The short JSON escapes. -/
def escChar : Char → Option Char
  | '"' => some '"'
  | '\\' => some '\\'
  | '/' => some '/'
  | 'b' => some (Char.ofNat 8)
  | 'f' => some (Char.ofNat 12)
  | 'n' => some '\n'
  | 'r' => some '\r'
  | 't' => some '\t'
  | _ => none

mutual

/-- Parse the body of a JSON string literal (after the opening quote):
returns the decoded characters and the input after the closing quote.
Surrogate pairs in `\uXXXX` escapes are combined. -/
def strBody : List Char → Option (List Char × List Char)
  | [] => none
  | c :: cs =>
      if c = '"' then some ([], cs)
      else if c = '\\' then strEsc cs
      else if c.toNat < 0x20 then none
      else (strBody cs).map (fun p => (c :: p.1, p.2))

/-- After a backslash: either `\uXXXX` or a short escape. -/
def strEsc : List Char → Option (List Char × List Char)
  | [] => none
  | x :: rest =>
      if x = 'u' then strU rest
      else
        match escChar x with
        | some ch => (strBody rest).map (fun p => (ch :: p.1, p.2))
        | none => none

/-- After `\u`: four hex digits; a high surrogate looks for its pair. -/
def strU : List Char → Option (List Char × List Char)
  | a :: b :: d :: e :: cs2 =>
      match hex4 a b d e with
      | none => none
      | some n =>
          if 0xD800 ≤ n ∧ n ≤ 0xDBFF then strPair n cs2
          else if 0xDC00 ≤ n ∧ n ≤ 0xDFFF then none
          else (strBody cs2).map (fun p => (Char.ofNat n :: p.1, p.2))
  | _ => none

/-- After a high surrogate `n`: a `\uXXXX` low surrogate completes the
code point. -/
def strPair (n : Nat) : List Char → Option (List Char × List Char)
  | '\\' :: 'u' :: a2 :: b2 :: d2 :: e2 :: cs3 =>
      match hex4 a2 b2 d2 e2 with
      | none => none
      | some m =>
          if 0xDC00 ≤ m ∧ m ≤ 0xDFFF then
            (strBody cs3).map (fun p =>
              (Char.ofNat (0x10000 + (n - 0xD800) * 0x400 + (m - 0xDC00)) :: p.1, p.2))
          else none
  | _ => none

end

/-- Decimal digit test. -/
def isDigitC (c : Char) : Bool := '0' ≤ c && c ≤ '9'

/-- Accumulate the value of a run of decimal digits. -/
def digitsVal : List Char → Nat → Nat
  | [], acc => acc
  | c :: cs, acc => digitsVal cs (acc * 10 + (c.toNat - 48))

/-- Parse an unsigned JSON integer at the head of the input (CPython's
NUMBER_RE integer part: `0`, or a nonzero digit followed by digits). -/
def parseNat : List Char → Option (Nat × List Char)
  | [] => none
  | c :: cs =>
      if c = '0' then some (0, cs)
      else if isDigitC c then
        some (digitsVal (cs.takeWhile isDigitC) (c.toNat - 48), cs.dropWhile isDigitC)
      else none

mutual

/-- Fuelled JSON value: leading whitespace, then dispatch on the first
character. -/
def parseVal : Nat → List Char → Option (Value × List Char)
  | 0, _ => none
  | f + 1, cs =>
      match skipWs cs with
      | [] => none
      | c :: r =>
          if c = '\x7b' then
            match skipWs r with
            | c2 :: r2 =>
                if c2 = '\x7d' then some (.vObj [], r2)
                else parsePairs f (c2 :: r2) []
            | [] => none
          else if c = '[' then
            match skipWs r with
            | c2 :: r2 =>
                if c2 = ']' then some (.vArr [], r2)
                else parseItems f (c2 :: r2) []
            | [] => none
          else if c = '"' then
            (strBody r).map (fun p => (.vStr ⟨p.1⟩, p.2))
          else if c = 't' then
            match r with
            | 'r' :: 'u' :: 'e' :: r2 => some (.vBool true, r2)
            | _ => none
          else if c = 'f' then
            match r with
            | 'a' :: 'l' :: 's' :: 'e' :: r2 => some (.vBool false, r2)
            | _ => none
          else if c = 'n' then
            match r with
            | 'u' :: 'l' :: 'l' :: r2 => some (.vNull, r2)
            | _ => none
          else if c = '-' then
            (parseNat r).map (fun p => (.vInt (-(p.1 : Int)), p.2))
          else if isDigitC c then
            (parseNat (c :: r)).map (fun p => (.vInt (p.1 : Int), p.2))
          else none

/-- Members of a JSON object, starting at a key's opening quote (no
trailing comma allowed); duplicate keys resolve like a Python dict. -/
def parsePairs : Nat → List Char → List (String × Value) → Option (Value × List Char)
  | 0, _, _ => none
  | f + 1, cs, acc =>
      match cs with
      | c :: r =>
          if c = '"' then
            match strBody r with
            | some (k, r1) =>
                match skipWs r1 with
                | c2 :: r2 =>
                    if c2 = ':' then
                      match parseVal f r2 with
                      | some (v, r3) =>
                          match skipWs r3 with
                          | c4 :: r4 =>
                              if c4 = ',' then parsePairs f (skipWs r4) (objInsert acc ⟨k⟩ v)
                              else if c4 = '\x7d' then
                                some (.vObj (objInsert acc ⟨k⟩ v), r4)
                              else none
                          | [] => none
                      | none => none
                    else none
                | [] => none
            | none => none
          else none
      | [] => none

/-- Elements of a JSON array, starting at a value (no trailing comma). -/
def parseItems : Nat → List Char → List Value → Option (Value × List Char)
  | 0, _, _ => none
  | f + 1, cs, acc =>
      match parseVal f cs with
      | some (v, r) =>
          match skipWs r with
          | c :: r2 =>
              if c = ',' then parseItems f r2 (acc ++ [v])
              else if c = ']' then some (.vArr (acc ++ [v]), r2)
              else none
          | [] => none
      | none => none

end

/-- `json.loads`: parse a value and require only whitespace after it. -/
def jsonParse (s : String) : Option Value :=
  match parseVal (2 * s.data.length + 2) s.data with
  | some (v, r) => if (skipWs r).isEmpty then some v else none
  | none => none

/-! JSON encoding (`json.dumps` with its defaults: `ensure_ascii=True`,
separators `", "` and `": "`). -/

/-- Lower-case hexadecimal digit. -/
def hexDigitChar (n : Nat) : Char :=
  if n < 10 then Char.ofNat (48 + n) else Char.ofNat (87 + n)

/-- Four-digit lower-case hexadecimal rendering. -/
def hex4Chars (n : Nat) : List Char :=
  [hexDigitChar (n / 4096 % 16), hexDigitChar (n / 256 % 16),
   hexDigitChar (n / 16 % 16), hexDigitChar (n % 16)]

/-- `json.dumps` escaping of one character (`ensure_ascii=True`):
short escapes, printable ASCII verbatim, `\uXXXX` otherwise, with
surrogate pairs above the BMP. -/
def escJsonChar (c : Char) : List Char :=
  if c = '"' then ['\\', '"']
  else if c = '\\' then ['\\', '\\']
  else if c = '\n' then ['\\', 'n']
  else if c = '\r' then ['\\', 'r']
  else if c = '\t' then ['\\', 't']
  else if c = Char.ofNat 8 then ['\\', 'b']
  else if c = Char.ofNat 12 then ['\\', 'f']
  else if 0x20 ≤ c.toNat ∧ c.toNat ≤ 0x7e then [c]
  else if c.toNat < 0x10000 then '\\' :: 'u' :: hex4Chars c.toNat
  else
    '\\' :: 'u' :: hex4Chars (0xD800 + (c.toNat - 0x10000) / 0x400) ++
      ('\\' :: 'u' :: hex4Chars (0xDC00 + (c.toNat - 0x10000) % 0x400))

/-- `json.dumps` escaping of a character sequence. -/
def escJsonStr : List Char → List Char
  | [] => []
  | c :: cs => escJsonChar c ++ escJsonStr cs

/-- A JSON string literal. -/
def dumpStr (s : String) : List Char := '"' :: (escJsonStr s.data ++ ['"'])

mutual

/-- `json.dumps` of a value. -/
def dumpV : Value → List Char
  | .vNull => ['n', 'u', 'l', 'l']
  | .vBool true => ['t', 'r', 'u', 'e']
  | .vBool false => ['f', 'a', 'l', 's', 'e']
  | .vInt n => intToStr n
  | .vStr s => dumpStr s
  | .vArr [] => ['[', ']']
  | .vArr (x :: xs) => '[' :: (dumpV x ++ dumpItemsRest xs ++ [']'])
  | .vObj [] => ['\x7b', '\x7d']
  | .vObj ((k, v) :: fs) =>
      '\x7b' :: (dumpStr k ++ ':' :: ' ' :: dumpV v ++ dumpFieldsRest fs ++ ['\x7d'])

/-- Remaining array elements, each preceded by `", "`. -/
def dumpItemsRest : List Value → List Char
  | [] => []
  | x :: xs => ',' :: ' ' :: (dumpV x ++ dumpItemsRest xs)

/-- Remaining object members, each preceded by `", "`. -/
def dumpFieldsRest : List (String × Value) → List Char
  | [] => []
  | (k, v) :: fs => ',' :: ' ' :: (dumpStr k ++ ':' :: ' ' :: dumpV v ++ dumpFieldsRest fs)

end

/-- `json.dumps`. -/
def jsonDumps (v : Value) : String := ⟨dumpV v⟩

/-! Fuel adequate for re-parsing a value (used to relate `jsonParse`'s
length-based fuel to the structure of a dumped value). -/

mutual

/-- Parsing fuel consumed by a value. -/
def fuelV : Value → Nat
  | .vArr xs => 1 + fuelL xs
  | .vObj fs => 1 + fuelF fs
  | _ => 1

/-- Parsing fuel consumed by array elements. -/
def fuelL : List Value → Nat
  | [] => 1
  | x :: xs => 1 + fuelV x + fuelL xs

/-- Parsing fuel consumed by object members. -/
def fuelF : List (String × Value) → Nat
  | [] => 1
  | (_, v) :: fs => 1 + fuelV v + fuelF fs

end

/-- Distinctness of the keys of one association list level. -/
def keysDistinct : List (String × Value) → Bool
  | [] => true
  | (k, _) :: fs => !(fs.any (fun p => p.1 == k)) && keysDistinct fs

mutual

/-- Well-formedness of a value as a Python object: every dict level has
distinct keys (a real Python dict cannot hold duplicates). -/
def wfV : Value → Bool
  | .vArr xs => wfL xs
  | .vObj fs => keysDistinct fs && wfF fs
  | _ => true

def wfL : List Value → Bool
  | [] => true
  | x :: xs => wfV x && wfL xs

def wfF : List (String × Value) → Bool
  | [] => true
  | (_, v) :: fs => wfV v && wfF fs

end

/-! The extraction pipeline `parse_tool_json` (server.py:425-453). -/

/-- The regex scan `re.findall(r'\x7b[^\x7b\x7d]*\x7d', text)`: at a `\x7b`,
greedily take non-brace characters and require a closing `\x7d`; on success
continue after the match, on failure advance one position. -/
def bracesFindall : Nat → List Char → List (List Char)
  | 0, _ => []
  | _ + 1, [] => []
  | f + 1, c :: cs =>
      if c = '\x7b' then
        let mid := cs.takeWhile (fun d => !(d = '\x7b' || d = '\x7d'))
        match cs.dropWhile (fun d => !(d = '\x7b' || d = '\x7d')) with
        | d :: rest2 =>
            if d = '\x7d' then ('\x7b' :: (mid ++ ['\x7d'])) :: bracesFindall f rest2
            else bracesFindall f cs
        | [] => bracesFindall f cs
      else bracesFindall f cs

/-- Python `text.rfind(ch)` (as an option). -/
def lastIdxOf (cs : List Char) (ch : Char) : Option Nat :=
  (cs.reverse.findIdx? (· = ch)).map (fun i => cs.length - 1 - i)

/-- Try each candidate in order: parse failures are skipped, and only a
Validator acceptance (which normalises the object in place) terminates
the search. -/
def tryCands : List (List Char) → Option Value
  | [] => none
  | c :: rest =>
      match jsonParse ⟨c⟩ with
      | some obj =>
          match validate_tool obj with
          | (true, obj2) => some obj2
          | (false, _) => tryCands rest
      | none => tryCands rest

/-- Embedding of `parse_tool_json` (server.py:425-453). -/
def parse_tool_json (text : String) : Option Value :=
  let cs := text.data
  let cands1 : List (List Char) := [(pyStrip text).data]
  let cands2 : List (List Char) :=
    if cs.contains '\x7b' && cs.contains '\x7d' then
      match cs.findIdx? (· = '\x7b'), lastIdxOf cs '\x7d' with
      | some s, some e =>
          if s < e + 1 then [(cs.drop s).take (e + 1 - s)] else []
      | _, _ => []
    else []
  let cands3 : List (List Char) := [cs.map (fun c => if c = apos then '"' else c)]
  let cands4 := bracesFindall (cs.length + 1) cs
  tryCands (cands1 ++ cands2 ++ cands3 ++ cands4)

/-! The heuristic planner (server.py:290-334) and its helpers.  Functions
that iterate over snapshot nodes raise `AttributeError` on non-mapping
nodes; this is modelled with `Except Unit`. -/

/-- Python `node.get(key, dflt)`, raising on non-mappings. -/
def pyGetD (v : Value) (k : String) (dflt : Value) : Except Unit Value :=
  match v with
  | .vObj fs => .ok ((objLookup fs k).getD dflt)
  | _ => .error ()

/-- `first_title_matching`'s scan: case-insensitive substring match in
either direction against each node title; returns the first matching
node's raw `title` value, else the search term itself. -/
def ftmGo (t : String) (term : String) : List Value → Except Unit Value
  | [] => .ok (.vStr term)
  | node :: rest =>
      match pyGetD node "title" (.vStr "") with
      | .error e => .error e
      | .ok tv =>
          if !(t == "") && !(pyLower (pyStr tv) == "") &&
              (hasSub (pyLower (pyStr tv)) t || hasSub t (pyLower (pyStr tv))) then
            .ok tv
          else ftmGo t term rest

/-- Embedding of `first_title_matching` (server.py:297-303). -/
def first_title_matching (term : String) (snapshot : List Value) : Except Unit Value :=
  ftmGo (pyLower term) term snapshot

/-- Python `s.split(" ", 1)[1]`: everything after the first space (callers
only use it under a `startswith` guard that guarantees a space). -/
def pySplit1Tail (cs : List Char) : List Char :=
  match cs.dropWhile (fun c => !(c = ' ')) with
  | _ :: rest => rest
  | [] => []

/-- The scan of `re.search('"([^"]+)"|' ++ "'([^']+)'", ins)`: at each
position try a double-quoted span first, then a single-quoted one;
`[^"]+` requires a non-empty body before the closing quote. -/
def scanQuote (q : Char) (cs : List Char) : Option (List Char × List Char) :=
  match cs.dropWhile (fun c => !(c = q)) with
  | _ :: rest2 =>
      let content := cs.takeWhile (fun c => !(c = q))
      if content.isEmpty then none else some (content, rest2)
  | [] => none

/-- First quoted substring of the instruction (`true` marks double
quotes, matching regex group 1). -/
def findQuoted : List Char → Option (Bool × List Char)
  | [] => none
  | c :: cs =>
      if c = '"' then
        match scanQuote '"' cs with
        | some (content, _) => some (true, content)
        | none => findQuoted cs
      else if c = apos then
        match scanQuote apos cs with
        | some (content, _) => some (false, content)
        | none => findQuoted cs
      else findQuoted cs

/-- `.+$` with Python semantics: at least one character, `.` excluding
newline, `$` at the end or before a final newline. -/
def dotPlusEndOk (cs : List Char) : Bool :=
  let core := if cs.getLast? = some '\n' then cs.dropLast else cs
  !core.isEmpty && !core.contains '\n'

/-- Greedy `\s+` with backtracking: try the largest whitespace run first.
Returns the offset (within the suffix) where group 1 starts. -/
def findWsSplit (suf : List Char) : Nat → Option Nat
  | 0 => none
  | w + 1 =>
      if dotPlusEndOk (suf.drop (w + 1)) then some (w + 1) else findWsSplit suf w

/-- Match `(?:into|in)\s+(.+)$` at position `p` ("into" tried before
"in"); returns the index where group 1 starts. -/
def matchIntoAt (p : Nat) (low : List Char) : Option Nat :=
  let tryAt := fun (j : Nat) =>
    let suf := low.drop j
    match findWsSplit suf (suf.takeWhile isPyWs).length with
    | some w => some (j + w)
    | none => none
  if leadsWith (low.drop p) "into".data then
    match tryAt (p + 4) with
    | some s => some s
    | none => if leadsWith (low.drop p) "in".data then tryAt (p + 2) else none
  else if leadsWith (low.drop p) "in".data then tryAt (p + 2)
  else none

/-- `re.search` position scan for `(?:into|in)\s+(.+)$`. -/
def scanInto : Nat → Nat → List Char → Option Nat
  | 0, _, _ => none
  | f + 1, p, low =>
      match matchIntoAt p low with
      | some s => some s
      | none => if low.length ≤ p then none else scanInto f (p + 1) low

/-- First match position (start of group 1) of `(?:into|in)\s+(.+)$`. -/
def findIntoStart (low : List Char) : Option Nat := scanInto (low.length + 1) 0 low

/-- The apostrophe as a one-character string. -/
def aposS : String := ⟨[apos]⟩

/-- The help phrases of the simple Q&A rule. -/
def helpPhrases : List String :=
  ["what" ++ aposS ++ "s on my screen", "what is on my screen", "help", "how do i"]

/-- The static help answer of the simple Q&A rule. -/
def helpText : String :=
  "I can click, type, focus, or answer based on the visible UI. Try: " ++ aposS ++
    "Click Save" ++ aposS ++ ", " ++ aposS ++ "Type \"Hello\" into Search" ++ aposS ++
    ", or " ++ aposS ++ "Focus password" ++ aposS ++ "."

/-- Embedding of `heuristic_tool` (server.py:290-334). -/
def heuristic_tool (instruction : String) (snapshot : List Value) :
    Except Unit (Option Value) :=
  let ins := pyStrip instruction
  let low := pyLower ins
  if leadsWith low.data "click ".data || leadsWith low.data "press ".data then
    match first_title_matching
        (pyStripChars ['"', apos] (pyStrip ⟨pySplit1Tail ins.data⟩)) snapshot with
    | .error e => .error e
    | .ok tv =>
        .ok (some (.vObj [("action", .vStr "click"), ("target", tv), ("text", .vStr "")]))
  else if leadsWith low.data "focus ".data then
    match first_title_matching
        (pyStripChars ['"', apos] (pyStrip ⟨pySplit1Tail ins.data⟩)) snapshot with
    | .error e => .error e
    | .ok tv =>
        .ok (some (.vObj [("action", .vStr "focus"), ("target", tv), ("text", .vStr "")]))
  else if leadsWith low.data "type ".data || leadsWith low.data "enter ".data ||
      leadsWith low.data "input ".data then
    match first_title_matching
        ((match findIntoStart low.data with
          | some s => some (pyStrip ⟨ins.data.drop s⟩)
          | none => none).getD "") snapshot with
    | .error e => .error e
    | .ok tv =>
        let text : String :=
          match (findQuoted ins.data).map (fun p => (⟨p.2⟩ : String)) with
          | some s => if s == "" then pyStrip ⟨pySplit1Tail ins.data⟩ else s
          | none => pyStrip ⟨pySplit1Tail ins.data⟩
        .ok (some (.vObj [("action", .vStr "type"), ("target", tv), ("text", .vStr text)]))
  else if helpPhrases.any (fun q => hasSub low q) then
    .ok (some (.vObj [("action", .vStr "answer"), ("target", Value.vNull),
      ("text", .vStr helpText)]))
  else .ok none

/-! The snapshot target normalizer (server.py:236-272).  The whole body
sits in a `try`/`except Exception: pass`; the embedding runs the body with
explicit error propagation and reports the tool state at the exit point
together with a flag recording whether the handler was reached. -/

/-- Python `for node in x` header: iterables of the model. -/
def pyIter : Value → Except Unit (List Value)
  | .vArr xs => .ok xs
  | .vStr s => .ok (s.data.map (fun c => .vStr ⟨[c]⟩))
  | .vObj fs => .ok (fs.map (fun p => .vStr p.1))
  | _ => .error ()

/-- Python `x.lower()`, raising on non-strings. -/
def pyLowerMethod : Value → Except Unit String
  | .vStr s => .ok (pyLower s)
  | _ => .error ()

/-- Total dict lookup used where the receiver is known to be a dict
(`tool.get(k)` with `None` for absent keys). -/
def getKeyD (tool : Value) (k : String) : Value :=
  match tool with
  | .vObj fs => (objLookup fs k).getD Value.vNull
  | _ => Value.vNull

/-- `tool[k] = v` on a dict (identity on non-dicts, unreachable there). -/
def setKeyV (tool : Value) (k : String) (v : Value) : Value :=
  match tool with
  | .vObj fs => .vObj (objInsert fs k v)
  | t => t

/-- The id-resolution loop: find the first node whose id (as `str`)
equals the target string; report its stripped title when non-empty
(`break` stops the scan in every match case). -/
def idScan (tgtS : String) : List Value → Except Unit (Option String)
  | [] => .ok none
  | node :: rest =>
      match pyGetD node "id" Value.vNull with
      | .error e => .error e
      | .ok idv =>
          if pyStr idv == tgtS then
            match pyGetD node "title" (.vStr "") with
            | .error e => .error e
            | .ok titv =>
                if pyStrip (pyStr titv) == "" then .ok none
                else .ok (some (pyStrip (pyStr titv)))
          else idScan tgtS rest

/-- The `visible_titles` comprehension: stripped titles, empties skipped. -/
def titlesOf : List Value → Except Unit (List String)
  | [] => .ok []
  | node :: rest =>
      match pyGetD node "title" (.vStr "") with
      | .error e => .error e
      | .ok titv =>
          match titlesOf rest with
          | .error e => .error e
          | .ok ts =>
              if pyStrip (pyStr titv) == "" then .ok ts
              else .ok (pyStrip (pyStr titv) :: ts)

/-- Python `s.split()`: split on whitespace runs, discarding empties. -/
def splitWsGo : Nat → List Char → List String
  | 0, _ => []
  | f + 1, cs =>
      match cs.dropWhile isPyWs with
      | [] => []
      | c :: cs1 =>
          ⟨(c :: cs1).takeWhile (fun d => !isPyWs d)⟩ ::
            splitWsGo f ((c :: cs1).dropWhile (fun d => !isPyWs d))

/-- Python `str.isalpha` (ASCII model). -/
def isAlphaStr (s : String) : Bool := !s.data.isEmpty && s.data.all Char.isAlpha

/-- Keep-first deduplication (the token set comprehension). -/
def dedupGo (seen : List String) : List String → List String
  | [] => []
  | s :: rest =>
      if seen.contains s then dedupGo seen rest else s :: dedupGo (s :: seen) rest

/-- The instruction tokens of the fuzzy step: newline squashed to a
space, whitespace split, alphabetic tokens of length at least 3, as a
set. -/
def tokensOf (lowIns : String) : List String :=
  let squashed := lowIns.data.map (fun c => if c = '\n' then ' ' else c)
  dedupGo []
    ((splitWsGo (squashed.length + 1) squashed).filter
      (fun t => isAlphaStr t && decide (3 ≤ t.data.length)))

/-- Tokens of the instruction appearing inside the lowered title. -/
def scoreOf (tokens : List String) (lt : String) : Nat :=
  tokens.countP (fun w => hasSub lt w)

/-- The best-scoring title fold (strict improvement, first maximum kept). -/
def bestGo (tokens : List String) : List String → Option String → Nat → Option String × Nat
  | [], best, bestScore => (best, bestScore)
  | title :: rest, best, bestScore =>
      let score := scoreOf tokens (pyLower title)
      if bestScore < score then bestGo tokens rest (some title) score
      else bestGo tokens rest best bestScore

/-- The fuzzy title-inference step of the normalizer's `try` body, run
over the current tool state and the visible titles. -/
def fuzzyStep (tool1 instruction : Value) (visible : List String) : Value × Bool :=
  let tgt := pyStrip (pyStr (pyOr (getKeyD tool1 "target") (.vStr "")))
  if !(tgt == "") && !(visible.contains tgt) then
    match pyLowerMethod (pyOr instruction (.vStr "")) with
    | .error _ => (tool1, true)
    | .ok lowIns =>
        match bestGo (tokensOf lowIns) visible none 0 with
        | (some b, bestScore) =>
            if !(b == "") && 0 < bestScore then
              (setKeyV tool1 "target" (.vStr b), false)
            else (tool1, false)
        | (none, _) => (tool1, false)
  else (tool1, false)

/-- The rest of the normalizer's `try` body after the id-resolution loop
(`tool1` is the tool state as updated by that loop). -/
def normAfterId (tool1 instruction : Value) (nodes : List Value) : Value × Bool :=
  match titlesOf nodes with
  | .error _ => (tool1, true)
  | .ok visible => fuzzyStep tool1 instruction visible

/-- The `try` body of `normalize_tool_with_snapshot`: result tool state
and whether the `except` handler was reached. -/
def normalize_try (tool snapshot instruction : Value) : Value × Bool :=
  match pyGetD tool "action" Value.vNull with
  | .error _ => (tool, true)
  | .ok av =>
      match pyLowerMethod (pyOr av (.vStr "")) with
      | .error _ => (tool, true)
      | .ok action =>
          if (action == "click" || action == "focus" || action == "type") &&
              pyTruthy (getKeyD tool "target") then
            match pyIter snapshot with
            | .error _ => (tool, true)
            | .ok nodes =>
                match idScan (pyStr (getKeyD tool "target")) nodes with
                | .error _ => (tool, true)
                | .ok (some title) =>
                    normAfterId (setKeyV tool "target" (.vStr title)) instruction nodes
                | .ok none => normAfterId tool instruction nodes
          else (tool, false)

/-- Embedding of `normalize_tool_with_snapshot` (server.py:236-272): the
`except` swallows the error and the current tool state is returned. -/
def normalize_tool_with_snapshot (tool snapshot instruction : Value) : Value :=
  (normalize_try tool snapshot instruction).1

/-- Embedding of `fallback_tool` (server.py:275-287). -/
def fallback_tool (instruction : String) (detail : Option String) : Value :=
  let text : String :=
    match detail with
    | some d =>
        if d == "" then "Echo: " ++ instruction
        else "Echo: " ++ instruction ++ " (AI offline: " ++ d ++ ")"
    | none => "Echo: " ++ instruction
  .vObj [("response", .vStr "Fallback response generated"),
    ("tool", .vObj [("action", .vStr "answer"), ("target", Value.vNull),
      ("text", .vStr text)])]

/-- Embedding of `query_ollama` (server.py:383-422) after the network
transport: a transport failure carries its detail string, a transport
success carries the raw response text, which is fed to the extractor. -/
def query_ollama (net : Except String String) : Option Value × Option String :=
  match net with
  | .error e => (none, some e)
  | .ok raw =>
      match parse_tool_json raw with
      | none => (none, some "Failed to parse valid tool JSON from Ollama response")
      | some tool => (some tool, none)

/-- The `response` summary of `plan_action`'s model-success path:
`tool.get("text") or "(no response)"` for `answer` tools, else
`f"Planned: {action} {target}".strip()` (with `action`/`target` read
back as `tool.get(...) or ""`). -/
def plan_model_response (tool2 : Value) : Value :=
  match pyOr (getKeyD tool2 "action") (.vStr "") with
  | .vStr s =>
      if s == "answer" then pyOr (getKeyD tool2 "text") (.vStr "(no response)")
      else
        .vStr (pyStrip ("Planned: " ++ pyStr (pyOr (getKeyD tool2 "action") (.vStr "")) ++
          " " ++ pyStr (pyOr (getKeyD tool2 "target") (.vStr ""))))
  | _ =>
      .vStr (pyStrip ("Planned: " ++ pyStr (pyOr (getKeyD tool2 "action") (.vStr "")) ++
        " " ++ pyStr (pyOr (getKeyD tool2 "target") (.vStr ""))))

/-- The model-success path of `plan_action`: normalize, then summarise. -/
def plan_model_path (instruction : String) (snapshot : List Value) (tool : Value) : Value :=
  .vObj [("response", plan_model_response
      (normalize_tool_with_snapshot tool (.vArr snapshot) (.vStr instruction))),
    ("tool", normalize_tool_with_snapshot tool (.vArr snapshot) (.vStr instruction))]

/-- The failure path of `plan_action`: heuristic planner first (its
exceptions propagate), then the echo fallback. -/
def plan_fallback_path (instruction : String) (snapshot : List Value)
    (toolError : Option String) : Except Unit Value :=
  match heuristic_tool instruction snapshot with
  | .error e => .error e
  | .ok (some h) =>
      .ok (.vObj [("response", pyOr (getKeyD h "text") (.vStr "Action planned")),
        ("tool", h)])
  | .ok none => .ok (fallback_tool instruction toolError)

/-- Embedding of `plan_action` (server.py:210-233).  `build_prompt` only
feeds the external model, which is abstracted by the `net` parameter.
Exceptions escaping the heuristic planner propagate out of `plan_action`
(there is no handler), hence the `Except` result. -/
def plan_action (instruction : String) (snapshot : List Value)
    (net : Except String String) : Except Unit Value :=
  match query_ollama net with
  | (some tool, _) => .ok (plan_model_path instruction snapshot tool)
  | (none, toolError) => plan_fallback_path instruction snapshot toolError

/-! Auxiliary notions used by the extraction/round-trip analyses. -/

/-- The character after a dumped integer may not extend the digit run. -/
def digitBoundary : List Char → Prop
  | [] => True
  | c :: _ => isDigitC c = false

/-- Little-endian numeric value of a digit list. -/
def valLE : List Char → Nat
  | [] => 0
  | c :: cs => (c.toNat - 48) + 10 * valLE cs

/-- `str.strip()` on character lists (the body of `pyStrip`). -/
def pyStripL (cs : List Char) : List Char :=
  ((cs.dropWhile isPyWs).reverse.dropWhile isPyWs).reverse

/-- Right-strip on character lists. -/
def rstripL (p : Char → Bool) (cs : List Char) : List Char :=
  (cs.reverse.dropWhile p).reverse

/-- Python slice `cs[i:j]`. -/
def sliceL (cs : List Char) (i j : Nat) : List Char := (cs.drop i).take (j - i)

/-- Is this character sequence exactly a well-formed JSON object text
(starting at its opening brace, parsed to the very end)? -/
def isJsonObjStr : List Char → Bool
  | [] => false
  | c :: rest =>
      if c = '\x7b' then
        match parseVal (2 * (c :: rest).length + 2) (c :: rest) with
        | some (.vObj _, []) => true
        | _ => false
      else false

/-- Number of slices of the text that are well-formed JSON object texts
(how many well-formed JSON objects the text contains). -/
def objSliceCount (cs : List Char) : Nat :=
  ((List.range (cs.length + 1)).map (fun i =>
    ((List.range (cs.length + 1)).filter (fun j => isJsonObjStr (sliceL cs i j))).length)).sum

-- Association-list lemmas shared by several claims.

theorem objLookup_objInsert_self (fs : List (String × Value)) (k : String) (v : Value) :
    objLookup (objInsert fs k v) k = some v := by
  induction fs with
  | nil => simp [objInsert, objLookup]
  | cons p fs ih =>
      obtain ⟨k', w⟩ := p
      by_cases h : k' = k <;> simp [objInsert, objLookup, h, ih]

theorem objLookup_objInsert_ne (fs : List (String × Value)) (k k' : String) (v : Value)
    (h : k' ≠ k) : objLookup (objInsert fs k v) k' = objLookup fs k' := by
  induction fs with
  | nil => simp [objInsert, objLookup, Ne.symm h]
  | cons p fs ih =>
      obtain ⟨k0, w⟩ := p
      by_cases h0 : k0 = k
      · subst h0
        simp [objInsert, objLookup, Ne.symm h]
      · simp [objInsert, objLookup, h0, ih]

theorem objLookup_setTargetF_self (fs : List (String × Value)) :
    objLookup (setTargetF fs) "target" = some (coerceTarget (objLookup fs "target")) :=
  objLookup_objInsert_self _ _ _

theorem objLookup_setTargetF_ne (fs : List (String × Value)) (k : String)
    (h : k ≠ "target") : objLookup (setTargetF fs) k = objLookup fs k :=
  objLookup_objInsert_ne _ _ _ _ h

theorem objLookup_setTextF_self (fs : List (String × Value)) :
    objLookup (setTextF fs) "text" = some (coerceText (objLookup fs "text")) :=
  objLookup_objInsert_self _ _ _

theorem objLookup_setTextF_ne (fs : List (String × Value)) (k : String)
    (h : k ≠ "text") : objLookup (setTextF fs) k = objLookup fs k :=
  objLookup_objInsert_ne _ _ _ _ h

/-- C1 — the full contract of the Validator: it accepts exactly the
mappings whose `action` is a string in the allowed set after lower-casing
and trimming, and on acceptance it normalises `action`, `target` and
`text` as the spec describes. -/
theorem c1_validate_tool_contract (v : Value) :
    ((validate_tool v).1 = true ↔
      ∃ fs a, v = .vObj fs ∧ objLookup fs "action" = some (.vStr a) ∧
        pyStrip (pyLower a) ∈ ALLOWED_ACTIONS) ∧
    (∀ fs a, v = .vObj fs → objLookup fs "action" = some (.vStr a) →
      pyStrip (pyLower a) ∈ ALLOWED_ACTIONS →
      ∃ gs, (validate_tool v).2 = .vObj gs ∧
        objLookup gs "action" = some (.vStr (pyStrip (pyLower a))) ∧
        objLookup gs "target" = some (coerceTarget (objLookup fs "target")) ∧
        objLookup gs "text" = some (coerceText (objLookup fs "text"))) := by
  constructor
  · constructor
    · intro h
      cases v with
      | vObj fs =>
          simp only [validate_tool] at h
          cases hl : objLookup fs "action" with
          | none => rw [hl] at h; simp at h
          | some t =>
              rw [hl] at h
              cases t with
              | vStr a =>
                  by_cases hc : pyStrip (pyLower a) ∈ ALLOWED_ACTIONS
                  · exact ⟨fs, a, rfl, hl, hc⟩
                  · simp [hc] at h
              | vNull => simp at h
              | vBool b => simp at h
              | vInt n => simp at h
              | vArr xs => simp at h
              | vObj gs => simp at h
      | vNull => simp [validate_tool] at h
      | vBool b => simp [validate_tool] at h
      | vInt n => simp [validate_tool] at h
      | vStr s => simp [validate_tool] at h
      | vArr xs => simp [validate_tool] at h
    · rintro ⟨fs, a, rfl, hl, hc⟩
      simp [validate_tool, hl, hc]
  · rintro fs a rfl hl hc
    refine ⟨setTextF (setTargetF (setActionF fs (pyStrip (pyLower a)))), ?_, ?_, ?_, ?_⟩
    · simp [validate_tool, hl, hc]
    · rw [objLookup_setTextF_ne _ _ (by decide), objLookup_setTargetF_ne _ _ (by decide)]
      simp only [setActionF]
      exact objLookup_objInsert_self _ _ _
    · rw [objLookup_setTextF_ne _ _ (by decide), objLookup_setTargetF_self]
      simp only [setActionF]
      rw [objLookup_objInsert_ne _ _ _ _ (by decide)]
    · rw [objLookup_setTextF_self]
      rw [objLookup_setTargetF_ne _ _ (by decide)]
      simp only [setActionF]
      rw [objLookup_objInsert_ne _ _ _ _ (by decide)]

/-- Witness for C1 at the concrete input `{"action": " CLICK "}`. -/
theorem c1_validate_tool_contract_witness :
    ∃ gs, (validate_tool (.vObj [("action", .vStr " CLICK ")])).2 = .vObj gs ∧
      objLookup gs "action" = some (.vStr "click") ∧
      objLookup gs "target" = some Value.vNull ∧
      objLookup gs "text" = some (Value.vStr "") := by
  obtain ⟨-, hacc⟩ := c1_validate_tool_contract (.vObj [("action", .vStr " CLICK ")])
  obtain ⟨gs, h1, h2, h3, h4⟩ :=
    hacc [("action", .vStr " CLICK ")] " CLICK " rfl rfl (by
      have : pyStrip (pyLower " CLICK ") = "click" := by decide
      rw [this]; decide)
  have hact : pyStrip (pyLower " CLICK ") = "click" := by decide
  rw [hact] at h2
  exact ⟨gs, h1, h2, h3, h4⟩

/-- C6 counterexample: `validate_tool` accepts `{"action": " CLICK "}` and
mutates it in place, so the input value is not left unchanged. -/
theorem c6_validate_tool_not_pure_cex :
    (validate_tool (.vObj [("action", .vStr " CLICK ")])).1 = true ∧
    (validate_tool (.vObj [("action", .vStr " CLICK ")])).2 ≠
      .vObj [("action", .vStr " CLICK ")] := by
  refine ⟨rfl, ?_⟩
  have hv : (validate_tool (.vObj [("action", .vStr " CLICK ")])).2 =
      .vObj [("action", .vStr "click"), ("target", Value.vNull), ("text", .vStr "")] := rfl
  rw [hv]
  simp

/-- C6 amended: the Validator is deterministic, and when it rejects it
leaves its argument untouched; on acceptance however it rewrites the
argument in place into the normalised tool. -/
theorem c6_validate_tool_reject_frame (v : Value)
    (h : (validate_tool v).1 = false) : (validate_tool v).2 = v := by
  cases v with
  | vObj fs =>
      simp only [validate_tool] at h ⊢
      cases hl : objLookup fs "action" with
      | none => rfl
      | some t =>
          rw [hl] at h
          cases t with
          | vStr a =>
              by_cases hc : pyStrip (pyLower a) ∈ ALLOWED_ACTIONS
              · simp [hc] at h
              · simp [hc]
          | vNull => rfl
          | vBool b => rfl
          | vInt n => rfl
          | vArr xs => rfl
          | vObj gs => rfl
  | vNull => rfl
  | vBool b => rfl
  | vInt n => rfl
  | vStr s => rfl
  | vArr xs => rfl

/-- Witness for the amended C6 at the rejected input `null`. -/
theorem c6_validate_tool_reject_frame_witness :
    (validate_tool Value.vNull).1 = false ∧ (validate_tool Value.vNull).2 = Value.vNull :=
  ⟨by decide, c6_validate_tool_reject_frame Value.vNull (by decide)⟩

-- Shared lemmas about the normalizer's mutation discipline.

theorem objInsert_objInsert_same (fs : List (String × Value)) (k : String) (a b : Value) :
    objInsert (objInsert fs k a) k b = objInsert fs k b := by
  induction fs with
  | nil => simp [objInsert]
  | cons p fs ih =>
      obtain ⟨k0, w⟩ := p
      by_cases h0 : k0 = k <;> simp [objInsert, h0, ih]

theorem setKeyV_setKeyV_same (t : Value) (k : String) (a b : Value) :
    setKeyV (setKeyV t k a) k b = setKeyV t k b := by
  cases t <;> simp [setKeyV, objInsert_objInsert_same]

theorem fuzzyStep_result (tool1 instruction : Value) (visible : List String) :
    (fuzzyStep tool1 instruction visible).1 = tool1 ∨
    ∃ s, (fuzzyStep tool1 instruction visible).1 = setKeyV tool1 "target" (.vStr s) := by
  simp only [fuzzyStep]
  split
  · split
    · exact Or.inl rfl
    · split
      · split
        · exact Or.inr ⟨_, rfl⟩
        · exact Or.inl rfl
      · exact Or.inl rfl
  · exact Or.inl rfl

theorem normAfterId_result (tool1 instruction : Value) (nodes : List Value) :
    (normAfterId tool1 instruction nodes).1 = tool1 ∨
    ∃ s, (normAfterId tool1 instruction nodes).1 = setKeyV tool1 "target" (.vStr s) := by
  unfold normAfterId
  split
  · exact Or.inl rfl
  · exact fuzzyStep_result tool1 instruction _

theorem normalize_try_result (tool snapshot instruction : Value) :
    (normalize_try tool snapshot instruction).1 = tool ∨
    ∃ s, (normalize_try tool snapshot instruction).1 = setKeyV tool "target" (.vStr s) := by
  unfold normalize_try
  split
  · exact Or.inl rfl
  · split
    · exact Or.inl rfl
    · split
      · split
        · exact Or.inl rfl
        · split
          · exact Or.inl rfl
          · rcases normAfterId_result (setKeyV tool "target" (.vStr _)) instruction _ with h | ⟨s, h⟩
            · exact Or.inr ⟨_, h⟩
            · rw [setKeyV_setKeyV_same] at h
              exact Or.inr ⟨s, h⟩
          · exact normAfterId_result tool instruction _
      · exact Or.inl rfl

/-- C4 counterexample: tool `{"action": "click", "target": "1"}`, snapshot
`[{"id": 1, "title": "Save"}, 42]`.  The id loop rewrites the target to
`"Save"` and breaks; the `visible_titles` comprehension then raises on the
non-mapping node `42`, so an internal error occurs, yet the returned tool
differs from the one given. -/
theorem c4_normalize_error_mutation_cex :
    (normalize_try (.vObj [("action", .vStr "click"), ("target", .vStr "1")])
      (.vArr [.vObj [("id", .vInt 1), ("title", .vStr "Save")], .vInt 42])
      (.vStr "")).2 = true ∧
    (normalize_try (.vObj [("action", .vStr "click"), ("target", .vStr "1")])
      (.vArr [.vObj [("id", .vInt 1), ("title", .vStr "Save")], .vInt 42])
      (.vStr "")).1 ≠ .vObj [("action", .vStr "click"), ("target", .vStr "1")] := by
  refine ⟨rfl, ?_⟩
  have h : (normalize_try (.vObj [("action", .vStr "click"), ("target", .vStr "1")])
      (.vArr [.vObj [("id", .vInt 1), ("title", .vStr "Save")], .vInt 42])
      (.vStr "")).1 = .vObj [("action", .vStr "click"), ("target", .vStr "Save")] := rfl
  rw [h]
  simp

/-- C4 amended: the Normalizer never raises (the `except` handler's tool
state is always returned), and when an internal error occurs the result
is the tool as it stood at the failure point — the given tool, except
that the id-resolution loop may already have rewritten `target` to a
matched node's title. -/
theorem c4_normalize_swallows_errors (tool snapshot instruction : Value) :
    normalize_tool_with_snapshot tool snapshot instruction =
      (normalize_try tool snapshot instruction).1 ∧
    ((normalize_try tool snapshot instruction).2 = true →
      (normalize_try tool snapshot instruction).1 = tool ∨
      ∃ s, (normalize_try tool snapshot instruction).1 = setKeyV tool "target" (.vStr s)) :=
  ⟨rfl, fun _ => normalize_try_result tool snapshot instruction⟩

/-- Witness for the amended C4 at a concrete erroring input (non-mapping
tool: `tool.get` raises, the handler returns it unchanged). -/
theorem c4_normalize_swallows_errors_witness :
    (normalize_try (.vInt 3) Value.vNull Value.vNull).2 = true ∧
    ((normalize_try (.vInt 3) Value.vNull Value.vNull).1 = .vInt 3 ∨
      ∃ s, (normalize_try (.vInt 3) Value.vNull Value.vNull).1 =
        setKeyV (.vInt 3) "target" (.vStr s)) :=
  ⟨rfl, (c4_normalize_swallows_errors (.vInt 3) Value.vNull Value.vNull).2 rfl⟩

-- Lemmas for the idempotence analysis of the normalizer (C5).

theorem idScan_none_of_no_titled_match (tgtS : String) (nodes : List Value)
    (hid : ∀ hs, Value.vObj hs ∈ nodes →
      pyStr ((objLookup hs "id").getD Value.vNull) = tgtS →
      pyStrip (pyStr ((objLookup hs "title").getD (.vStr ""))) = "") :
    idScan tgtS nodes = .ok none ∨ idScan tgtS nodes = .error () := by
  induction nodes with
  | nil => exact Or.inl rfl
  | cons node rest ih =>
      cases node with
      | vObj hs =>
          simp only [idScan, pyGetD]
          by_cases hmatch : pyStr ((objLookup hs "id").getD Value.vNull) == tgtS
          · rw [if_pos hmatch]
            have := hid hs (List.mem_cons_self _ _) (by simpa using hmatch)
            rw [if_pos (by simpa using this)]
            exact Or.inl rfl
          · rw [if_neg hmatch]
            exact ih (fun gs hmem heq => hid gs (List.mem_cons_of_mem _ hmem) heq)
      | vNull => exact Or.inr rfl
      | vBool b => exact Or.inr rfl
      | vInt n => exact Or.inr rfl
      | vStr s => exact Or.inr rfl
      | vArr xs => exact Or.inr rfl

theorem titlesOf_mem (nodes : List Value) (visible : List String)
    (h : titlesOf nodes = .ok visible) (gs : List (String × Value))
    (hmem : Value.vObj gs ∈ nodes) (tv : Value)
    (htitle : objLookup gs "title" = some tv)
    (hne : pyStrip (pyStr tv) ≠ "") : pyStrip (pyStr tv) ∈ visible := by
  induction nodes generalizing visible with
  | nil => cases hmem
  | cons node rest ih =>
      rcases List.mem_cons.1 hmem with heq | hmem'
      · subst heq
        simp only [titlesOf, pyGetD, htitle, Option.getD_some] at h
        cases hrest : titlesOf rest with
        | error e => rw [hrest] at h; cases h
        | ok ts =>
            rw [hrest] at h
            dsimp only at h
            rw [if_neg (by simpa using hne)] at h
            cases h
            exact List.mem_cons_self _ _
      · cases node with
        | vObj hs =>
            simp only [titlesOf, pyGetD] at h
            cases hrest : titlesOf rest with
            | error e => rw [hrest] at h; cases h
            | ok ts =>
                rw [hrest] at h
                dsimp only at h
                by_cases hskip : pyStrip (pyStr ((objLookup hs "title").getD (.vStr ""))) == ""
                · rw [if_pos hskip] at h
                  cases h
                  exact ih _ hrest hmem'
                · rw [if_neg hskip] at h
                  cases h
                  exact List.mem_cons_of_mem _ (ih _ hrest hmem')
        | vNull => simp [titlesOf, pyGetD] at h
        | vBool b => simp [titlesOf, pyGetD] at h
        | vInt n => simp [titlesOf, pyGetD] at h
        | vStr s => simp [titlesOf, pyGetD] at h
        | vArr xs => simp [titlesOf, pyGetD] at h

/-- The fuzzy step is a no-op when the current target already strips to
the empty string or to a visible title. -/
theorem fuzzyStep_noop (tool1 instruction : Value) (visible : List String)
    (h : pyStrip (pyStr (pyOr (getKeyD tool1 "target") (.vStr ""))) = "" ∨
      pyStrip (pyStr (pyOr (getKeyD tool1 "target") (.vStr ""))) ∈ visible) :
    fuzzyStep tool1 instruction visible = (tool1, false) := by
  simp only [fuzzyStep]
  rcases h with h | h
  · rw [if_neg]
    simp [h]
  · rw [if_neg]
    simp only [Bool.and_eq_true, Bool.not_eq_true', beq_eq_false_iff_ne, ne_eq,
      Bool.not_eq_true]
    intro hc
    exact absurd (by simpa using h) (by simpa using hc.2)

/-- C5 counterexample: tool `{"action": "click", "target": "Save"}` whose
target equals the title of the snapshot node `{"id": 2, "title": "Save"}`;
but the earlier node `{"id": "Save", "title": "Cancel"}` id-matches the
target, so normalization rewrites the target to `"Cancel"` — not a no-op. -/
theorem c5_normalize_not_idempotent_cex :
    objLookup [("id", .vInt 2), ("title", .vStr "Save")] "title" =
      some (.vStr "Save") ∧
    normalize_tool_with_snapshot
      (.vObj [("action", .vStr "click"), ("target", .vStr "Save")])
      (.vArr [.vObj [("id", .vStr "Save"), ("title", .vStr "Cancel")],
        .vObj [("id", .vInt 2), ("title", .vStr "Save")]])
      (.vStr "") =
      .vObj [("action", .vStr "click"), ("target", .vStr "Cancel")] ∧
    Value.vObj [("action", .vStr "click"), ("target", .vStr "Cancel")] ≠
      .vObj [("action", .vStr "click"), ("target", .vStr "Save")] := by
  refine ⟨rfl, rfl, ?_⟩
  simp

/-- C5 amended: normalizing a tool whose target already equals the title
of a snapshot node is a no-op, provided no node whose id's string form
equals the target's string form carries a non-empty (stripped) title. -/
theorem c5_normalize_idempotent (fs : List (String × Value)) (snap : List Value)
    (instruction : Value) (tv : Value) (gs : List (String × Value))
    (hT : objLookup fs "target" = some tv)
    (hmem : Value.vObj gs ∈ snap)
    (htitle : objLookup gs "title" = some tv)
    (hid : ∀ hs, Value.vObj hs ∈ snap →
      pyStr ((objLookup hs "id").getD Value.vNull) = pyStr tv →
      pyStrip (pyStr ((objLookup hs "title").getD (.vStr ""))) = "") :
    normalize_tool_with_snapshot (.vObj fs) (.vArr snap) instruction = .vObj fs := by
  have hkey : getKeyD (.vObj fs) "target" = tv := by simp [getKeyD, hT]
  unfold normalize_tool_with_snapshot normalize_try
  simp only [pyGetD]
  cases hact : pyLowerMethod (pyOr ((objLookup fs "action").getD Value.vNull) (.vStr "")) with
  | error e => rfl
  | ok action =>
      dsimp only
      by_cases hcond : ((action == "click" || action == "focus" || action == "type") &&
          pyTruthy (getKeyD (.vObj fs) "target")) = true
      · rw [if_pos hcond]
        simp only [pyIter]
        have hid' : ∀ hs, Value.vObj hs ∈ snap →
            pyStr ((objLookup hs "id").getD Value.vNull) =
              pyStr (getKeyD (.vObj fs) "target") →
            pyStrip (pyStr ((objLookup hs "title").getD (.vStr ""))) = "" := by
          rw [hkey]; exact hid
        rcases idScan_none_of_no_titled_match
            (pyStr (getKeyD (.vObj fs) "target")) snap hid' with hscan | hscan
        · rw [hscan]
          dsimp only
          unfold normAfterId
          cases hti : titlesOf snap with
          | error e => rfl
          | ok visible =>
              dsimp only
              rw [fuzzyStep_noop]
              have htr : pyTruthy tv = true := by
                have h2 := hcond
                rw [Bool.and_eq_true, hkey] at h2
                exact h2.2
              rw [hkey]
              unfold pyOr
              rw [if_pos htr]
              by_cases hz : pyStrip (pyStr tv) = ""
              · exact Or.inl hz
              · exact Or.inr (titlesOf_mem snap visible hti gs hmem tv htitle hz)
        · rw [hscan]
      · rw [if_neg hcond]

/-- Witness for the amended C5: a target equal to the only node's title,
no id collision — normalization is a no-op. -/
theorem c5_normalize_idempotent_witness :
    normalize_tool_with_snapshot
      (.vObj [("action", .vStr "click"), ("target", .vStr "Save")])
      (.vArr [.vObj [("id", .vInt 2), ("title", .vStr "Save")]]) (.vStr "click it") =
      .vObj [("action", .vStr "click"), ("target", .vStr "Save")] :=
  c5_normalize_idempotent [("action", .vStr "click"), ("target", .vStr "Save")]
    [.vObj [("id", .vInt 2), ("title", .vStr "Save")]] (.vStr "click it")
    (.vStr "Save") [("id", .vInt 2), ("title", .vStr "Save")]
    rfl (List.mem_cons_self _ _) rfl
    (by
      intro hs hmem heq
      simp only [List.mem_cons, List.not_mem_nil, or_false] at hmem
      cases hmem
      exact absurd heq (by decide))

/-- C3 counterexample: with the model offline and the instruction
`"open settings"` (no heuristic rule matches), `plan_action` returns the
response string `"Fallback response generated"` — the echo text appears
only in the tool's `text` field, not in `response`. -/
theorem c3_plan_action_echo_response_cex :
    plan_action "open settings" [] (.error "boom") =
      .ok (.vObj [("response", .vStr "Fallback response generated"),
        ("tool", .vObj [("action", .vStr "answer"), ("target", Value.vNull),
          ("text", .vStr "Echo: open settings (AI offline: boom)")])]) ∧
    ("Fallback response generated" : String) ≠
      "Echo: open settings (AI offline: boom)" := by
  refine ⟨rfl, ?_⟩
  decide

/-- C3 amended: when the model call fails with a non-empty failure detail
and no heuristic rule matches, `plan_action` returns the fallback record:
its `response` is the constant `"Fallback response generated"`, while the
tool is an `answer` whose text is exactly
`"Echo: {instruction} (AI offline: {detail})"`. -/
theorem c3_plan_action_fallback (instr : String) (snap : List Value) (detail : String)
    (hh : heuristic_tool instr snap = .ok none) (hd : detail ≠ "") :
    plan_action instr snap (.error detail) =
      .ok (.vObj [("response", .vStr "Fallback response generated"),
        ("tool", .vObj [("action", .vStr "answer"), ("target", Value.vNull),
          ("text", .vStr ("Echo: " ++ instr ++ " (AI offline: " ++ detail ++ ")"))])]) := by
  simp only [plan_action, query_ollama, plan_fallback_path]
  rw [hh]
  simp [fallback_tool, hd]

/-- Witness for the amended C3 at `"open settings"` with detail `"boom"`. -/
theorem c3_plan_action_fallback_witness :
    plan_action "open settings" [] (.error "boom") =
      .ok (.vObj [("response", .vStr "Fallback response generated"),
        ("tool", .vObj [("action", .vStr "answer"), ("target", Value.vNull),
          ("text", .vStr ("Echo: " ++ "open settings" ++ " (AI offline: " ++ "boom" ++ ")"))])]) :=
  c3_plan_action_fallback "open settings" [] "boom" rfl (by decide)

/-- C8 — the heuristic on `Type "Hello" into Search` with an empty
snapshot: the quoted substring becomes the text, the words after
`"into "` become the target (`"Search"`, which contains `"search"`
case-insensitively). -/
theorem c8_heuristic_type_quoted_into :
    heuristic_tool "Type \"Hello\" into Search" [] =
      .ok (some (.vObj [("action", .vStr "type"), ("target", .vStr "Search"),
        ("text", .vStr "Hello")])) ∧
    hasSub (pyLower "Search") "search" = true := ⟨rfl, rfl⟩

-- Shape of heuristic planner results (shared by C9 and C10).

theorem ftmGo_ok_shape (nodes : List Value) (t term : String) (tv : Value)
    (h : ftmGo t term nodes = .ok tv) :
    tv = .vStr term ∨ ∃ gs, Value.vObj gs ∈ nodes ∧ objLookup gs "title" = some tv := by
  induction nodes with
  | nil =>
      simp only [ftmGo] at h
      cases h
      exact Or.inl rfl
  | cons node rest ih =>
      cases node with
      | vObj gs =>
          simp only [ftmGo, pyGetD] at h
          cases hlk : objLookup gs "title" with
          | none =>
              rw [hlk] at h
              simp only [Option.getD_none] at h
              by_cases hc : (!(t == "") && !(pyLower (pyStr (Value.vStr "")) == "") &&
                  (hasSub (pyLower (pyStr (Value.vStr ""))) t ||
                    hasSub t (pyLower (pyStr (Value.vStr ""))))) = true
              · exfalso
                have hm : (pyLower (pyStr (Value.vStr "")) == "") = true := rfl
                rw [hm] at hc
                simp at hc
              · rw [if_neg hc] at h
                rcases ih h with h1 | ⟨gs2, hm, ht⟩
                · exact Or.inl h1
                · exact Or.inr ⟨gs2, List.mem_cons_of_mem _ hm, ht⟩
          | some x =>
              rw [hlk] at h
              simp only [Option.getD_some] at h
              by_cases hc : (!(t == "") && !(pyLower (pyStr x) == "") &&
                  (hasSub (pyLower (pyStr x)) t || hasSub t (pyLower (pyStr x)))) = true
              · rw [if_pos hc] at h
                cases h
                exact Or.inr ⟨gs, List.mem_cons_self _ _, hlk⟩
              · rw [if_neg hc] at h
                rcases ih h with h1 | ⟨gs2, hm, ht⟩
                · exact Or.inl h1
                · exact Or.inr ⟨gs2, List.mem_cons_of_mem _ hm, ht⟩
      | vNull => exact Except.noConfusion h
      | vBool b => exact Except.noConfusion h
      | vInt n => exact Except.noConfusion h
      | vStr s => exact Except.noConfusion h
      | vArr xs => exact Except.noConfusion h

theorem first_title_matching_ok_shape (term : String) (snap : List Value) (tv : Value)
    (h : first_title_matching term snap = .ok tv) :
    (∃ s, tv = .vStr s) ∨ ∃ gs, Value.vObj gs ∈ snap ∧ objLookup gs "title" = some tv := by
  rcases ftmGo_ok_shape snap (pyLower term) term tv h with h1 | h2
  · exact Or.inl ⟨term, h1⟩
  · exact Or.inr h2

theorem heuristic_tool_shape (instr : String) (snap : List Value) (h : Value)
    (hh : heuristic_tool instr snap = .ok (some h)) :
    ∃ act tv txt,
      h = .vObj [("action", .vStr act), ("target", tv), ("text", .vStr txt)] ∧
      act ∈ ALLOWED_ACTIONS ∧
      ((act = "click" ∨ act = "focus") → txt = "") ∧
      (tv = Value.vNull ∨ (∃ s, tv = .vStr s) ∨
        ∃ gs, Value.vObj gs ∈ snap ∧ objLookup gs "title" = some tv) := by
  simp only [heuristic_tool] at hh
  split at hh
  · split at hh
    · exact Except.noConfusion hh
    · rename_i tv hft
      injection hh with hh1
      injection hh1 with hh2
      refine ⟨"click", tv, "", hh2.symm, by decide, fun _ => rfl, ?_⟩
      rcases first_title_matching_ok_shape _ snap tv hft with h1 | h2
      · exact Or.inr (Or.inl h1)
      · exact Or.inr (Or.inr h2)
  · split at hh
    · split at hh
      · exact Except.noConfusion hh
      · rename_i tv hft
        injection hh with hh1
        injection hh1 with hh2
        refine ⟨"focus", tv, "", hh2.symm, by decide, fun _ => rfl, ?_⟩
        rcases first_title_matching_ok_shape _ snap tv hft with h1 | h2
        · exact Or.inr (Or.inl h1)
        · exact Or.inr (Or.inr h2)
    · split at hh
      · split at hh
        · exact Except.noConfusion hh
        · rename_i tv hft
          injection hh with hh1
          injection hh1 with hh2
          refine ⟨"type", tv, _, hh2.symm, by decide, ?_, ?_⟩
          · intro hcf
            rcases hcf with h' | h' <;> exact absurd h' (by decide)
          · rcases first_title_matching_ok_shape _ snap tv hft with h1 | h2
            · exact Or.inr (Or.inl h1)
            · exact Or.inr (Or.inr h2)
      · split at hh
        · injection hh with hh1
          injection hh1 with hh2
          refine ⟨"answer", Value.vNull, helpText, hh2.symm, by decide, ?_, Or.inl rfl⟩
          intro hcf
          rcases hcf with h' | h' <;> exact absurd h' (by decide)
        · injection hh with hh1
          exact Option.noConfusion hh1

/-- C10 — when the model path fails and the heuristic produces a tool,
`plan_action` returns that tool as-is (no Normalizer), with `response`
equal to the tool's text when non-empty and `"Action planned"` otherwise;
in particular every heuristic `click`/`focus` tool (whose text is empty)
yields the response `"Action planned"`. -/
theorem c10_plan_action_heuristic_path (instr : String) (snap : List Value)
    (net : Except String String) (h : Value)
    (hq : (query_ollama net).1 = none)
    (hh : heuristic_tool instr snap = .ok (some h)) :
    plan_action instr snap net =
      .ok (.vObj [("response", pyOr (getKeyD h "text") (.vStr "Action planned")),
        ("tool", h)]) ∧
    (∀ txt, getKeyD h "text" = .vStr txt →
      pyOr (getKeyD h "text") (.vStr "Action planned") =
        .vStr (if txt = "" then "Action planned" else txt)) ∧
    (∀ act tv txt,
      h = .vObj [("action", .vStr act), ("target", tv), ("text", .vStr txt)] →
      (act = "click" ∨ act = "focus") →
      pyOr (getKeyD h "text") (.vStr "Action planned") = .vStr "Action planned") := by
  refine ⟨?_, ?_, ?_⟩
  · rcases hqv : query_ollama net with ⟨a, b⟩
    rw [hqv] at hq
    dsimp only at hq
    subst hq
    unfold plan_action
    rw [hqv]
    dsimp only
    unfold plan_fallback_path
    rw [hh]
  · intro txt htxt
    rw [htxt]
    unfold pyOr pyTruthy
    by_cases hz : txt = ""
    · subst hz
      rw [if_neg (by simp), if_pos rfl]
    · rw [if_pos (by simpa using hz), if_neg hz]
  · intro act tv txt heq hcf
    have htxt : getKeyD h "text" = .vStr txt := by
      rw [heq]
      simp [getKeyD, objLookup]
    have htz : txt = "" := by
      obtain ⟨act2, tv2, txt2, heq2, -, hcz, -⟩ := heuristic_tool_shape instr snap h hh
      rw [heq] at heq2
      injection heq2 with heqL
      injection heqL with h1 hrest
      injection h1 with h1a h1b
      injection hrest with h2 hrest2
      injection hrest2 with h3 _
      injection h3 with h3a h3b
      injection h1b with hact
      injection h3b with htxteq
      exact htxteq.trans (hcz (by rw [← hact]; exact hcf))
    subst htz
    rw [htxt]
    unfold pyOr pyTruthy
    rw [if_neg (by simp)]

/-- Witness for C10 at `"Click Save"` with the model offline: heuristic
click tool returned unchanged, response `"Action planned"`. -/
theorem c10_plan_action_heuristic_path_witness :
    plan_action "Click Save" [] (.error "x") =
      .ok (.vObj [("response", .vStr "Action planned"),
        ("tool", .vObj [("action", .vStr "click"), ("target", .vStr "Save"),
          ("text", .vStr "")])]) := by
  have h := c10_plan_action_heuristic_path "Click Save" [] (.error "x")
    (.vObj [("action", .vStr "click"), ("target", .vStr "Save"), ("text", .vStr "")])
    rfl rfl
  rw [h.1]
  rfl

-- Lemmas for the orchestrator invariant (C9).

theorem pyOr_vStr (s : String) (b : Value) :
    pyOr (.vStr s) b = if s = "" then b else .vStr s := by
  unfold pyOr pyTruthy
  by_cases hz : s = ""
  · subst hz
    rw [if_neg (by simp), if_pos rfl]
  · rw [if_pos (by simpa using hz), if_neg hz]

theorem coerceTarget_cases (o : Option Value) :
    coerceTarget o = Value.vNull ∨ ∃ s, coerceTarget o = .vStr s := by
  match o with
  | none => exact Or.inl rfl
  | some .vNull => exact Or.inl rfl
  | some (.vBool b) => exact Or.inr ⟨_, rfl⟩
  | some (.vInt n) => exact Or.inr ⟨_, rfl⟩
  | some (.vStr s) => exact Or.inr ⟨_, rfl⟩
  | some (.vArr xs) => exact Or.inr ⟨_, rfl⟩
  | some (.vObj fs) => exact Or.inr ⟨_, rfl⟩

theorem coerceText_vStr (o : Option Value) : ∃ s, coerceText o = .vStr s := by
  match o with
  | none => exact ⟨_, rfl⟩
  | some .vNull => exact ⟨_, rfl⟩
  | some (.vBool b) => exact ⟨_, rfl⟩
  | some (.vInt n) => exact ⟨_, rfl⟩
  | some (.vStr s) => exact ⟨_, rfl⟩
  | some (.vArr xs) => exact ⟨_, rfl⟩
  | some (.vObj fs) => exact ⟨_, rfl⟩

theorem validate_tool_shape (v : Value) (hv : (validate_tool v).1 = true) :
    ∃ fs, (validate_tool v).2 = .vObj fs ∧
      (∃ a, objLookup fs "action" = some (.vStr a) ∧ a ∈ ALLOWED_ACTIONS) ∧
      (objLookup fs "target" = some Value.vNull ∨
        ∃ s, objLookup fs "target" = some (.vStr s)) ∧
      (∃ s, objLookup fs "text" = some (.vStr s)) := by
  cases v with
  | vObj fs =>
      simp only [validate_tool] at hv ⊢
      cases hl : objLookup fs "action" with
      | none => rw [hl] at hv; simp at hv
      | some t =>
          rw [hl] at hv
          cases t with
          | vStr a =>
              dsimp only at hv ⊢
              by_cases hc : pyStrip (pyLower a) ∈ ALLOWED_ACTIONS
              · rw [if_pos hc] at hv ⊢
                refine ⟨_, rfl, ⟨pyStrip (pyLower a), ?_, hc⟩, ?_, ?_⟩
                · rw [objLookup_setTextF_ne _ _ (by decide),
                    objLookup_setTargetF_ne _ _ (by decide)]
                  simp only [setActionF]
                  exact objLookup_objInsert_self _ _ _
                · rw [objLookup_setTextF_ne _ _ (by decide), objLookup_setTargetF_self]
                  rcases coerceTarget_cases
                      (objLookup (setActionF fs (pyStrip (pyLower a))) "target") with
                    h1 | ⟨s, h1⟩
                  · exact Or.inl (by rw [h1])
                  · exact Or.inr ⟨s, by rw [h1]⟩
                · rw [objLookup_setTextF_self]
                  obtain ⟨s, h1⟩ := coerceText_vStr
                    (objLookup (setTargetF (setActionF fs (pyStrip (pyLower a)))) "text")
                  exact ⟨s, by rw [h1]⟩
              · rw [if_neg hc] at hv
                simp at hv
          | vNull => simp at hv
          | vBool b => simp at hv
          | vInt n => simp at hv
          | vArr xs => simp at hv
          | vObj gs => simp at hv
  | vNull => simp [validate_tool] at hv
  | vBool b => simp [validate_tool] at hv
  | vInt n => simp [validate_tool] at hv
  | vStr s => simp [validate_tool] at hv
  | vArr xs => simp [validate_tool] at hv

theorem tryCands_validated (cands : List (List Char)) (t : Value)
    (h : tryCands cands = some t) :
    ∃ v0, (validate_tool v0).1 = true ∧ t = (validate_tool v0).2 := by
  induction cands with
  | nil => cases h
  | cons c rest ih =>
      simp only [tryCands] at h
      cases hp : jsonParse ⟨c⟩ with
      | none => rw [hp] at h; exact ih h
      | some obj =>
          rw [hp] at h
          dsimp only at h
          rcases hvt : validate_tool obj with ⟨b, o2⟩
          rw [hvt] at h
          cases b with
          | true =>
              refine ⟨obj, by rw [hvt], ?_⟩
              cases h
              rw [hvt]
          | false => exact ih h

theorem parse_tool_json_validated (raw : String) (t : Value)
    (h : parse_tool_json raw = some t) :
    ∃ v0, (validate_tool v0).1 = true ∧ t = (validate_tool v0).2 := by
  simp only [parse_tool_json] at h
  exact tryCands_validated _ _ h

theorem ftmGo_no_raise (t term : String) (nodes : List Value)
    (hs : ∀ n ∈ nodes, ∃ gs, n = Value.vObj gs) :
    ∃ tv, ftmGo t term nodes = .ok tv := by
  induction nodes with
  | nil => exact ⟨_, rfl⟩
  | cons node rest ih =>
      obtain ⟨gs, rfl⟩ := hs node (List.mem_cons_self _ _)
      simp only [ftmGo, pyGetD]
      split
      · exact ⟨_, rfl⟩
      · exact ih (fun n hn => hs n (List.mem_cons_of_mem _ hn))

theorem heuristic_tool_no_raise (instr : String) (snap : List Value)
    (hs : ∀ n ∈ snap, ∃ gs, n = Value.vObj gs) :
    ∃ r, heuristic_tool instr snap = .ok r := by
  simp only [heuristic_tool]
  split
  · obtain ⟨tv, hft⟩ := ftmGo_no_raise _ _ snap hs
    rw [first_title_matching, hft]
    exact ⟨_, rfl⟩
  · split
    · obtain ⟨tv, hft⟩ := ftmGo_no_raise _ _ snap hs
      rw [first_title_matching, hft]
      exact ⟨_, rfl⟩
    · split
      · obtain ⟨tv, hft⟩ := ftmGo_no_raise _ _ snap hs
        rw [first_title_matching, hft]
        exact ⟨_, rfl⟩
      · split
        · exact ⟨_, rfl⟩
        · exact ⟨_, rfl⟩

theorem fallback_tool_shape (instr : String) (d : Option String) :
    ∃ s, fallback_tool instr d =
      .vObj [("response", .vStr "Fallback response generated"),
        ("tool", .vObj [("action", .vStr "answer"), ("target", Value.vNull),
          ("text", .vStr s)])] := by
  cases d with
  | none => exact ⟨_, rfl⟩
  | some e =>
      simp only [fallback_tool]
      by_cases hz : (e == "") = true
      · rw [if_pos hz]
        exact ⟨_, rfl⟩
      · rw [if_neg hz]
        exact ⟨_, rfl⟩

theorem plan_fallback_path_shape (instr : String) (snap : List Value)
    (toolError : Option String)
    (hs : ∀ n ∈ snap, ∃ gs, n = Value.vObj gs) :
    ∃ r fs2,
      plan_fallback_path instr snap toolError =
        .ok (.vObj [("response", .vStr r), ("tool", .vObj fs2)]) ∧
      (∃ a, objLookup fs2 "action" = some (.vStr a) ∧ a ∈ ALLOWED_ACTIONS) ∧
      (∃ s, objLookup fs2 "text" = some (.vStr s)) ∧
      (objLookup fs2 "target" = some Value.vNull ∨
        (∃ s, objLookup fs2 "target" = some (.vStr s)) ∨
        (∃ tv gs, objLookup fs2 "target" = some tv ∧ Value.vObj gs ∈ snap ∧
          objLookup gs "title" = some tv)) := by
  obtain ⟨res, hres⟩ := heuristic_tool_no_raise instr snap hs
  cases res with
  | none =>
      obtain ⟨s, hfb⟩ := fallback_tool_shape instr toolError
      refine ⟨"Fallback response generated",
        [("action", .vStr "answer"), ("target", Value.vNull), ("text", .vStr s)],
        ?_, ⟨"answer", rfl, by decide⟩, ⟨s, rfl⟩, Or.inl rfl⟩
      unfold plan_fallback_path
      rw [hres]
      dsimp only
      rw [hfb]
  | some h =>
      obtain ⟨act, tv, txt, rfl, hmemA, -, htv⟩ := heuristic_tool_shape instr snap h hres
      have hget : getKeyD (.vObj [("action", .vStr act), ("target", tv),
          ("text", .vStr txt)]) "text" = .vStr txt := by
        simp [getKeyD, objLookup]
      refine ⟨if txt = "" then "Action planned" else txt,
        [("action", .vStr act), ("target", tv), ("text", .vStr txt)], ?_,
        ⟨act, rfl, hmemA⟩, ⟨txt, rfl⟩, ?_⟩
      · unfold plan_fallback_path
        rw [hres]
        dsimp only
        rw [hget, pyOr_vStr]
        by_cases hz : txt = "" <;> simp [hz]
      · rcases htv with h1 | ⟨s, h1⟩ | ⟨gs, hm, ht⟩
        · exact Or.inl (by rw [h1]; simp [objLookup])
        · exact Or.inr (Or.inl ⟨s, by rw [h1]; simp [objLookup]⟩)
        · exact Or.inr (Or.inr ⟨tv, gs, by simp [objLookup], hm, ht⟩)

theorem normalized_model_tool_shape (tool : Value) (snap : List Value) (instr : String)
    (fs : List (String × Value)) (htool : tool = .vObj fs)
    (htar : objLookup fs "target" = some Value.vNull ∨
      ∃ s, objLookup fs "target" = some (.vStr s)) :
    ∃ fs2, normalize_tool_with_snapshot tool (.vArr snap) (.vStr instr) = .vObj fs2 ∧
      objLookup fs2 "action" = objLookup fs "action" ∧
      (objLookup fs2 "target" = some Value.vNull ∨
        ∃ s, objLookup fs2 "target" = some (.vStr s)) ∧
      objLookup fs2 "text" = objLookup fs "text" := by
  subst htool
  rcases normalize_try_result (.vObj fs) (.vArr snap) (.vStr instr) with h | ⟨s, h⟩
  · exact ⟨fs, by rw [normalize_tool_with_snapshot, h], rfl, htar, rfl⟩
  · refine ⟨objInsert fs "target" (.vStr s),
      by rw [normalize_tool_with_snapshot, h]; rfl, ?_, ?_, ?_⟩
    · exact objLookup_objInsert_ne _ _ _ _ (by decide)
    · exact Or.inr ⟨s, objLookup_objInsert_self _ _ _⟩
    · exact objLookup_objInsert_ne _ _ _ _ (by decide)

theorem plan_model_response_vStr (fs2 : List (String × Value))
    (hact : ∃ a, objLookup fs2 "action" = some (.vStr a) ∧ a ∈ ALLOWED_ACTIONS)
    (htxt : ∃ s, objLookup fs2 "text" = some (.vStr s)) :
    ∃ r, plan_model_response (.vObj fs2) = .vStr r := by
  obtain ⟨a, ha, hmem⟩ := hact
  obtain ⟨sx, hx⟩ := htxt
  have hga : getKeyD (.vObj fs2) "action" = .vStr a := by simp [getKeyD, ha]
  have hane : a ≠ "" := by fin_cases hmem <;> decide
  unfold plan_model_response
  rw [hga, pyOr_vStr, if_neg hane]
  dsimp only
  by_cases hans : (a == "answer") = true
  · rw [if_pos hans]
    have hgx : getKeyD (.vObj fs2) "text" = .vStr sx := by simp [getKeyD, hx]
    rw [hgx, pyOr_vStr]
    by_cases hz : sx = ""
    · rw [if_pos hz]
      exact ⟨_, rfl⟩
    · rw [if_neg hz]
      exact ⟨_, rfl⟩
  · rw [if_neg hans]
    exact ⟨_, rfl⟩

/-- C9 counterexample: on the heuristic path the tool can carry a
non-string, non-null target (a raw snapshot title), and a snapshot with a
non-mapping node makes `plan_action` raise instead of returning a record. -/
theorem c9_plan_action_invariant_cex :
    plan_action "click 42" [.vInt 42] (.error "e") = .error () ∧
    ∃ fs2, plan_action "click 5" [.vObj [("title", .vInt 5)]] (.error "e") =
      .ok (.vObj [("response", .vStr "Action planned"), ("tool", .vObj fs2)]) ∧
      objLookup fs2 "target" = some (.vInt 5) ∧
      (∀ s, Value.vInt 5 ≠ .vStr s) ∧ Value.vInt 5 ≠ Value.vNull := by
  refine ⟨rfl, [("action", .vStr "click"), ("target", .vInt 5), ("text", .vStr "")],
    rfl, rfl, ?_, ?_⟩
  · exact fun s h => Value.noConfusion h
  · exact fun h => Value.noConfusion h

/-- C9 amended: for every instruction, every snapshot whose elements are
mappings, and every model outcome, `plan_action` returns a record with a
string `response` and a `tool` mapping whose `action` is one of the four
allowed actions, whose `text` is a string, and whose `target` is a
string, the absent marker `None`, or the raw `title` value of a snapshot
node (picked up by the heuristic's title matching). -/
theorem c9_plan_action_shape_invariant (instr : String) (snap : List Value)
    (net : Except String String)
    (hs : ∀ n ∈ snap, ∃ gs, n = Value.vObj gs) :
    ∃ r fs2,
      plan_action instr snap net =
        .ok (.vObj [("response", .vStr r), ("tool", .vObj fs2)]) ∧
      (∃ a, objLookup fs2 "action" = some (.vStr a) ∧ a ∈ ALLOWED_ACTIONS) ∧
      (∃ s, objLookup fs2 "text" = some (.vStr s)) ∧
      (objLookup fs2 "target" = some Value.vNull ∨
        (∃ s, objLookup fs2 "target" = some (.vStr s)) ∨
        (∃ tv gs, objLookup fs2 "target" = some tv ∧ Value.vObj gs ∈ snap ∧
          objLookup gs "title" = some tv)) := by
  cases net with
  | error e =>
      obtain ⟨r, fs2, heq, h1, h2, h3⟩ := plan_fallback_path_shape instr snap (some e) hs
      exact ⟨r, fs2, heq, h1, h2, h3⟩
  | ok raw =>
      cases hp : parse_tool_json raw with
      | none =>
          obtain ⟨r, fs2, heq, h1, h2, h3⟩ := plan_fallback_path_shape instr snap
            (some "Failed to parse valid tool JSON from Ollama response") hs
          refine ⟨r, fs2, ?_, h1, h2, h3⟩
          have hpa : plan_action instr snap (.ok raw) =
              plan_fallback_path instr snap
                (some "Failed to parse valid tool JSON from Ollama response") := by
            simp only [plan_action, query_ollama, hp]
          rw [hpa]
          exact heq
      | some tool =>
          obtain ⟨v0, hv0, htool⟩ := parse_tool_json_validated raw tool hp
          obtain ⟨fs, hfs, hact, htar, htxt⟩ := validate_tool_shape v0 hv0
          obtain ⟨fs2, hnorm, hact2, htar2, htxt2⟩ :=
            normalized_model_tool_shape tool snap instr fs (htool.trans hfs) htar
          obtain ⟨a, ha, hamem⟩ := hact
          obtain ⟨sx, hx⟩ := htxt
          obtain ⟨r, hr⟩ := plan_model_response_vStr fs2
            ⟨a, by rw [hact2]; exact ha, hamem⟩ ⟨sx, by rw [htxt2]; exact hx⟩
          refine ⟨r, fs2, ?_, ⟨a, by rw [hact2]; exact ha, hamem⟩,
            ⟨sx, by rw [htxt2]; exact hx⟩, ?_⟩
          · have hpa : plan_action instr snap (.ok raw) =
                .ok (plan_model_path instr snap tool) := by
              simp only [plan_action, query_ollama, hp]
            rw [hpa]
            unfold plan_model_path
            rw [hnorm, hr]
          · rcases htar2 with h1 | ⟨s, h1⟩
            · exact Or.inl h1
            · exact Or.inr (Or.inl ⟨s, h1⟩)

/-- Witness for the amended C9 at a concrete offline call with an empty
snapshot. -/
theorem c9_plan_action_shape_invariant_witness :
    ∃ r fs2,
      plan_action "hello there" [] (.error "down") =
        .ok (.vObj [("response", .vStr r), ("tool", .vObj fs2)]) ∧
      (∃ a, objLookup fs2 "action" = some (.vStr a) ∧ a ∈ ALLOWED_ACTIONS) ∧
      (∃ s, objLookup fs2 "text" = some (.vStr s)) ∧
      (objLookup fs2 "target" = some Value.vNull ∨
        (∃ s, objLookup fs2 "target" = some (.vStr s)) ∨
        (∃ tv gs, objLookup fs2 "target" = some tv ∧ Value.vObj gs ∈ ([] : List Value) ∧
          objLookup gs "title" = some tv)) :=
  c9_plan_action_shape_invariant "hello there" [] (.error "down")
    (fun n hn => absurd hn (List.not_mem_nil n))

-- Decimal rendering round-trip (for the JSON dump/parse analysis).

theorem digit_char_toNat (k : Nat) (h : k < 10) :
    (Char.ofNat (48 + k)).toNat = 48 + k := by
  interval_cases k <;> decide

theorem digit_char_isDigit (k : Nat) (h : k < 10) :
    isDigitC (Char.ofNat (48 + k)) = true := by
  interval_cases k <;> decide

theorem digit_char_ne_zero (k : Nat) (h0 : 0 < k) (h : k < 10) :
    Char.ofNat (48 + k) ≠ '0' := by
  interval_cases k <;> decide

theorem isJsonWs_false_of_digit (c : Char) (h : isDigitC c = true) :
    isJsonWs c = false := by
  simp only [isDigitC, Bool.and_eq_true, decide_eq_true_eq] at h
  have h48 : 48 ≤ c.toNat := h.1
  have e1 : c ≠ ' ' := fun he => absurd (he ▸ h48) (by decide)
  have e2 : c ≠ '\t' := fun he => absurd (he ▸ h48) (by decide)
  have e3 : c ≠ '\n' := fun he => absurd (he ▸ h48) (by decide)
  have e4 : c ≠ '\r' := fun he => absurd (he ▸ h48) (by decide)
  simp [isJsonWs, e1, e2, e3, e4]

theorem digitsVal_append (a b : List Char) (acc : Nat) :
    digitsVal (a ++ b) acc = digitsVal b (digitsVal a acc) := by
  induction a generalizing acc with
  | nil => rfl
  | cons c cs ih => simp [digitsVal, ih]

theorem digitsVal_reverse (ds : List Char) (acc : Nat) :
    digitsVal ds.reverse acc = acc * 10 ^ ds.length + valLE ds := by
  induction ds generalizing acc with
  | nil => simp [digitsVal, valLE]
  | cons c cs ih =>
      rw [List.reverse_cons, digitsVal_append, ih]
      simp only [digitsVal, valLE, List.length_cons]
      rw [pow_succ]
      ring

theorem valLE_append_single (ds : List Char) (d : Char) :
    valLE (ds ++ [d]) = valLE ds + (d.toNat - 48) * 10 ^ ds.length := by
  induction ds with
  | nil => simp [valLE]
  | cons c cs ih =>
      rw [List.cons_append]
      simp only [valLE]
      rw [ih, List.length_cons, pow_succ]
      ring

theorem natToRevDigits_spec (f : Nat) :
    ∀ n, n ≤ f → valLE (natToRevDigits f n) = n ∧
      ∀ c ∈ natToRevDigits f n, isDigitC c = true := by
  induction f with
  | zero =>
      intro n hn
      interval_cases n
      exact ⟨rfl, by simp [natToRevDigits]⟩
  | succ f ih =>
      intro n hn
      by_cases h0 : n = 0
      · subst h0
        exact ⟨rfl, by simp [natToRevDigits]⟩
      · have hlt : n / 10 < n := Nat.div_lt_self (Nat.pos_of_ne_zero h0) (by omega)
        obtain ⟨ihv, ihd⟩ := ih (n / 10) (by omega)
        constructor
        · simp only [natToRevDigits, if_neg h0, valLE]
          rw [digit_char_toNat (n % 10) (Nat.mod_lt n (by omega)), ihv]
          omega
        · simp only [natToRevDigits, if_neg h0]
          intro c hc
          rcases List.mem_cons.1 hc with rfl | hc2
          · exact digit_char_isDigit (n % 10) (Nat.mod_lt n (by omega))
          · exact ihd c hc2

theorem natToRevDigits_last (f : Nat) :
    ∀ n, 0 < n → n ≤ f → ∃ ds d, natToRevDigits f n = ds ++ [d] ∧
      isDigitC d = true ∧ d ≠ '0' ∧ ∀ c ∈ ds, isDigitC c = true := by
  induction f with
  | zero => intro n h0 hn; omega
  | succ f ih =>
      intro n h0 hn
      by_cases hq : n / 10 = 0
      · refine ⟨[], Char.ofNat (48 + n % 10), ?_, ?_, ?_, by simp⟩
        · have hrec : natToRevDigits f (n / 10) = [] := by
            rw [hq]
            cases f <;> simp [natToRevDigits]
          have hne : ¬ n = 0 := by omega
          simp [natToRevDigits, hne, hrec]
        · exact digit_char_isDigit _ (Nat.mod_lt n (by omega))
        · have : n % 10 = n := by omega
          exact digit_char_ne_zero _ (by omega) (Nat.mod_lt n (by omega))
      · have hlt : n / 10 < n := Nat.div_lt_self h0 (by omega)
        obtain ⟨ds, d, hrec, hd1, hd2, hds⟩ :=
          ih (n / 10) (Nat.pos_of_ne_zero hq) (by omega)
        refine ⟨Char.ofNat (48 + n % 10) :: ds, d, ?_, hd1, hd2, ?_⟩
        · have hne : ¬ n = 0 := by omega
          simp [natToRevDigits, hne, hrec]
        · intro c hc
          rcases List.mem_cons.1 hc with rfl | hc2
          · exact digit_char_isDigit _ (Nat.mod_lt n (by omega))
          · exact hds c hc2

theorem takeWhile_all_append (p : Char → Bool) (a e : List Char)
    (ha : ∀ c ∈ a, p c = true) (he : ∀ c r, e = c :: r → p c = false) :
    (a ++ e).takeWhile p = a ∧ (a ++ e).dropWhile p = e := by
  induction a with
  | nil =>
      cases e with
      | nil => exact ⟨rfl, rfl⟩
      | cons c r =>
          simp [List.takeWhile, List.dropWhile, he c r rfl]
  | cons c cs ih =>
      have hc := ha c (List.mem_cons_self _ _)
      obtain ⟨h1, h2⟩ := ih (fun d hd => ha d (List.mem_cons_of_mem _ hd))
      simp [List.takeWhile, List.dropWhile, hc, h1, h2]

theorem parseNat_natToStr (n : Nat) (e : List Char) (he : digitBoundary e) :
    parseNat (natToStr n ++ e) = some (n, e) := by
  have heB : ∀ c r, e = c :: r → isDigitC c = false := by
    intro c r hcr
    rw [hcr] at he
    exact he
  by_cases h0 : n = 0
  · subst h0
    simp [natToStr, parseNat]
  · obtain ⟨ds, d, hsplit, hd1, hd2, hds⟩ :=
      natToRevDigits_last (n + 1) n (Nat.pos_of_ne_zero h0) (by omega)
    have hval : valLE (natToRevDigits (n + 1) n) = n :=
      (natToRevDigits_spec (n + 1) n (by omega)).1
    have hrev : natToStr n = d :: ds.reverse := by
      rw [natToStr, if_neg h0, hsplit]
      simp
    rw [hrev]
    simp only [List.cons_append, parseNat]
    rw [if_neg (by simpa using hd2), if_pos hd1]
    obtain ⟨htake, hdrop⟩ := takeWhile_all_append isDigitC ds.reverse e
      (fun c hc => hds c (List.mem_reverse.1 hc)) heB
    rw [htake, hdrop]
    rw [digitsVal_reverse]
    rw [hsplit, valLE_append_single] at hval
    simp only [Option.some.injEq, Prod.mk.injEq, and_true]
    omega

-- String-escape round-trip (for the JSON dump/parse analysis).

theorem hexVal_hexDigitChar : ∀ d, d < 16 → hexVal (hexDigitChar d) = some d := by
  decide

theorem hex4_roundtrip (n : Nat) (h : n < 65536) :
    hex4 (hexDigitChar (n / 4096 % 16)) (hexDigitChar (n / 256 % 16))
      (hexDigitChar (n / 16 % 16)) (hexDigitChar (n % 16)) = some n := by
  rw [hex4,
    hexVal_hexDigitChar _ (Nat.mod_lt _ (by omega)),
    hexVal_hexDigitChar _ (Nat.mod_lt _ (by omega)),
    hexVal_hexDigitChar _ (Nat.mod_lt _ (by omega)),
    hexVal_hexDigitChar _ (Nat.mod_lt _ (by omega))]
  simp only [Option.bind_some, Option.some.injEq, Option.bind_eq_bind]
  show some _ = some n
  congr 1
  omega

theorem char_toNat_valid (c : Char) :
    c.toNat < 0xd800 ∨ (0xdfff < c.toNat ∧ c.toNat < 0x110000) := by
  rcases c.valid with h | ⟨h1, h2⟩
  · exact Or.inl h
  · exact Or.inr ⟨h1, h2⟩

theorem strBody_escJsonChar (c : Char) (cs s r : List Char)
    (h : strBody cs = some (s, r)) :
    strBody (escJsonChar c ++ cs) = some (c :: s, r) := by
  simp only [escJsonChar]
  by_cases h1 : c = '"'
  · rw [if_pos h1]
    subst h1
    simp [strBody, strEsc, escChar, h]
  rw [if_neg h1]
  by_cases h2 : c = '\\'
  · rw [if_pos h2]
    subst h2
    simp [strBody, strEsc, escChar, h]
  rw [if_neg h2]
  by_cases h3 : c = '\n'
  · rw [if_pos h3]
    subst h3
    simp [strBody, strEsc, escChar, h]
  rw [if_neg h3]
  by_cases h4 : c = '\r'
  · rw [if_pos h4]
    subst h4
    simp [strBody, strEsc, escChar, h]
  rw [if_neg h4]
  by_cases h5 : c = '\t'
  · rw [if_pos h5]
    subst h5
    simp [strBody, strEsc, escChar, h]
  rw [if_neg h5]
  by_cases h6 : c = Char.ofNat 8
  · rw [if_pos h6]
    subst h6
    simp [strBody, strEsc, escChar, h]
  rw [if_neg h6]
  by_cases h7 : c = Char.ofNat 12
  · rw [if_pos h7]
    subst h7
    simp [strBody, strEsc, escChar, h]
  rw [if_neg h7]
  by_cases h8 : 0x20 ≤ c.toNat ∧ c.toNat ≤ 0x7e
  · rw [if_pos h8]
    show strBody (c :: cs) = _
    rw [strBody.eq_2, if_neg h1, if_neg h2, if_neg (by omega : ¬ c.toNat < 0x20), h]
    rfl
  rw [if_neg h8]
  by_cases h9 : c.toNat < 0x10000
  · rw [if_pos h9]
    have hns1 : ¬(0xD800 ≤ c.toNat ∧ c.toNat ≤ 0xDBFF) := by
      rcases char_toNat_valid c with hv | hv <;> omega
    have hns2 : ¬(0xDC00 ≤ c.toNat ∧ c.toNat ≤ 0xDFFF) := by
      rcases char_toNat_valid c with hv | hv <;> omega
    have hhex := hex4_roundtrip c.toNat h9
    simp only [hex4Chars, List.cons_append, List.nil_append]
    rw [strBody.eq_2, if_neg (by decide : ¬('\\' : Char) = '"'), if_pos rfl,
      strEsc.eq_2, if_pos rfl, strU.eq_1, hhex]
    dsimp only
    rw [if_neg hns1, if_neg hns2, h, Char.ofNat_toNat]
    rfl
  · rw [if_neg h9]
    have hval := char_toNat_valid c
    have hrange : c.toNat < 0x110000 := by rcases hval with hv | hv <;> omega
    have hhiB : 0xD800 + (c.toNat - 0x10000) / 0x400 < 65536 := by omega
    have hmod := Nat.mod_lt (c.toNat - 0x10000) (show 0 < 0x400 by omega)
    have hloB : 0xDC00 + (c.toNat - 0x10000) % 0x400 < 65536 := by omega
    have hhexHi := hex4_roundtrip _ hhiB
    have hhexLo := hex4_roundtrip _ hloB
    have hhiR : 0xD800 ≤ 0xD800 + (c.toNat - 0x10000) / 0x400 ∧
        0xD800 + (c.toNat - 0x10000) / 0x400 ≤ 0xDBFF := by
      have : (c.toNat - 0x10000) / 0x400 < 0x400 := by omega
      omega
    have hloR : 0xDC00 ≤ 0xDC00 + (c.toNat - 0x10000) % 0x400 ∧
        0xDC00 + (c.toNat - 0x10000) % 0x400 ≤ 0xDFFF := by omega
    simp only [hex4Chars, List.cons_append, List.append_assoc, List.nil_append]
    rw [strBody.eq_2, if_neg (by decide : ¬('\\' : Char) = '"'), if_pos rfl,
      strEsc.eq_2, if_pos rfl, strU.eq_1, hhexHi]
    dsimp only
    rw [if_pos hhiR, strPair.eq_1, hhexLo]
    dsimp only
    rw [if_pos hloR]
    have harith : 0x10000 + (0xD800 + (c.toNat - 0x10000) / 0x400 - 0xD800) * 0x400 +
        (0xDC00 + (c.toNat - 0x10000) % 0x400 - 0xDC00) = c.toNat := by omega
    rw [harith, Char.ofNat_toNat, h]
    rfl

theorem strBody_escJsonStr (l : List Char) (e : List Char) :
    strBody (escJsonStr l ++ '"' :: e) = some (l, e) := by
  induction l with
  | nil => simp [escJsonStr, strBody]
  | cons c cs ih =>
      rw [escJsonStr, List.append_assoc]
      exact strBody_escJsonChar c _ cs e ih

-- Helpers for the value-level dump/parse round-trip.

theorem skipWs_cons_not (c : Char) (cs : List Char) (h : isJsonWs c = false) :
    skipWs (c :: cs) = c :: cs := by
  rw [skipWs, if_neg (by simp [h])]

theorem parseVal_cons_ws (f : Nat) (c : Char) (cs : List Char) (h : isJsonWs c = true) :
    parseVal f (c :: cs) = parseVal f cs := by
  cases f with
  | zero => rfl
  | succ f =>
      rw [parseVal.eq_2, parseVal.eq_2, skipWs, if_pos (by simp [h])]

theorem parseItems_ws (f : Nat) (c : Char) (cs : List Char) (acc : List Value)
    (h : isJsonWs c = true) : parseItems f (c :: cs) acc = parseItems f cs acc := by
  cases f with
  | zero => rfl
  | succ f =>
      rw [parseItems.eq_2, parseItems.eq_2, parseVal_cons_ws _ _ _ h]

theorem digit_not_special (c : Char) (h : isDigitC c = true) :
    c ≠ '\x7b' ∧ c ≠ '[' ∧ c ≠ '"' ∧ c ≠ 't' ∧ c ≠ 'f' ∧ c ≠ 'n' ∧ c ≠ '-' ∧
      c ≠ ']' ∧ c ≠ '\x7d' := by
  refine ⟨?_, ?_, ?_, ?_, ?_, ?_, ?_, ?_, ?_⟩ <;>
    · intro he
      rw [he] at h
      exact absurd h (by decide)

theorem natToStr_head (n : Nat) :
    ∃ c rest, natToStr n = c :: rest ∧ isDigitC c = true := by
  by_cases h0 : n = 0
  · subst h0
    exact ⟨'0', [], rfl, by decide⟩
  · obtain ⟨ds, d, hsplit, hd1, -, -⟩ :=
      natToRevDigits_last (n + 1) n (Nat.pos_of_ne_zero h0) (by omega)
    refine ⟨d, ds.reverse, ?_, hd1⟩
    rw [natToStr, if_neg h0, hsplit]
    simp

theorem parseVal_intToStr (n : Int) (f : Nat) (e : List Char) (hf : 1 ≤ f)
    (he : digitBoundary e) : parseVal f (intToStr n ++ e) = some (.vInt n, e) := by
  obtain ⟨f, rfl⟩ : ∃ f', f = f' + 1 := ⟨f - 1, by omega⟩
  cases n with
  | ofNat m =>
      obtain ⟨c, rest, hshape, hdig⟩ := natToStr_head m
      obtain ⟨hb1, hb2, hb3, hb4, hb5, hb6, hb7, -, -⟩ := digit_not_special c hdig
      have hnp : parseNat (natToStr m ++ e) = some (m, e) := parseNat_natToStr m e he
      rw [hshape] at hnp
      rw [intToStr, hshape]
      rw [List.cons_append, parseVal.eq_2,
        skipWs_cons_not _ _ (isJsonWs_false_of_digit c hdig)]
      dsimp only
      rw [if_neg hb1, if_neg hb2, if_neg hb3, if_neg hb4, if_neg hb5, if_neg hb6,
        if_neg hb7, if_pos hdig]
      rw [← List.cons_append, hnp]
      rfl
  | negSucc m =>
      have hnp : parseNat (natToStr (m + 1) ++ e) = some (m + 1, e) :=
        parseNat_natToStr (m + 1) e he
      rw [intToStr, List.cons_append, parseVal.eq_2,
        skipWs_cons_not _ _ (by decide)]
      dsimp only
      rw [if_neg (by decide), if_neg (by decide), if_neg (by decide),
        if_neg (by decide), if_neg (by decide), if_neg (by decide), if_pos rfl]
      rw [hnp]
      show some (Value.vInt (-(↑(m + 1) : Int)), e) = some (.vInt (.negSucc m), e)
      rw [Int.negSucc_eq]
      norm_num

theorem dumpV_head (v : Value) :
    ∃ c rest, dumpV v = c :: rest ∧ isJsonWs c = false ∧ c ≠ ']' ∧ c ≠ '\x7d' := by
  cases v with
  | vNull => exact ⟨'n', _, rfl, by decide, by decide, by decide⟩
  | vBool b =>
      cases b
      · refine ⟨'f', _, rfl, ?_, ?_, ?_⟩ <;> decide
      · refine ⟨'t', _, rfl, ?_, ?_, ?_⟩ <;> decide
  | vInt n =>
      cases n with
      | ofNat m =>
          obtain ⟨c, rest, hshape, hdig⟩ := natToStr_head m
          obtain ⟨-, -, -, -, -, -, -, h8, h9⟩ := digit_not_special c hdig
          exact ⟨c, rest, by rw [dumpV, intToStr, hshape],
            isJsonWs_false_of_digit c hdig, h8, h9⟩
      | negSucc m =>
          exact ⟨'-', _, by rw [dumpV, intToStr], by decide, by decide, by decide⟩
  | vStr s => exact ⟨'"', _, rfl, by decide, by decide, by decide⟩
  | vArr xs => cases xs with
      | nil => exact ⟨'[', _, rfl, by decide, by decide, by decide⟩
      | cons x xs => exact ⟨'[', _, rfl, by decide, by decide, by decide⟩
  | vObj fs =>
      match fs with
      | [] => exact ⟨'\x7b', _, rfl, by decide, by decide, by decide⟩
      | (k, v) :: fs => exact ⟨'\x7b', _, rfl, by decide, by decide, by decide⟩

theorem keysDistinct_suffix (a b : List (String × Value))
    (h : keysDistinct (a ++ b) = true) : keysDistinct b = true := by
  induction a with
  | nil => exact h
  | cons p a ih =>
      obtain ⟨k, v⟩ := p
      rw [List.cons_append, keysDistinct, Bool.and_eq_true] at h
      exact ih h.2

theorem keysDistinct_cross (a b : List (String × Value))
    (h : keysDistinct (a ++ b) = true) :
    ∀ p ∈ a, ∀ q ∈ b, ¬(p.1 = q.1) := by
  induction a with
  | nil => intro p hp; cases hp
  | cons p0 a ih =>
      obtain ⟨k, v⟩ := p0
      rw [List.cons_append, keysDistinct, Bool.and_eq_true] at h
      intro p hp q hq
      rcases List.mem_cons.1 hp with rfl | hp2
      · intro hk
        have : ((a ++ b).any (fun p => p.1 == k)) = true := by
          refine List.any_eq_true.2 ⟨q, List.mem_append_right _ hq, ?_⟩
          simp [hk.symm]
        simp [this] at h
      · exact ih h.2 p hp2 q hq

theorem objInsert_append (acc : List (String × Value)) (k : String) (v : Value)
    (h : ∀ p ∈ acc, ¬(p.1 = k)) : objInsert acc k v = acc ++ [(k, v)] := by
  induction acc with
  | nil => rfl
  | cons p acc ih =>
      obtain ⟨k0, v0⟩ := p
      rw [objInsert, if_neg (h (k0, v0) (List.mem_cons_self _ _)),
        ih (fun q hq => h q (List.mem_cons_of_mem _ hq))]
      rfl

theorem fuelV_pos (v : Value) : 1 ≤ fuelV v := by
  cases v <;> simp only [fuelV] <;> omega

theorem fuelL_pos (xs : List Value) : 1 ≤ fuelL xs := by
  cases xs <;> simp only [fuelL] <;> omega

theorem fuelF_pos (fs : List (String × Value)) : 1 ≤ fuelF fs := by
  match fs with
  | [] => simp [fuelF]
  | (k, v) :: fs => simp only [fuelF]; omega

theorem digitBoundary_cons (c : Char) (r : List Char) (h : isDigitC c = false) :
    digitBoundary (c :: r) := h

/-- Fuel-indexed statement of the dump/parse round-trip: a dumped
well-formed value, a dumped element tail and a dumped member tail each
re-parse to the structure they were printed from. -/
theorem parse_dump_rt (f : Nat) :
    (∀ v e, wfV v = true → fuelV v ≤ f → digitBoundary e →
        parseVal f (dumpV v ++ e) = some (v, e)) ∧
    (∀ x xs acc e, wfV x = true → wfL xs = true → fuelV x + fuelL xs ≤ f →
        parseItems f (dumpV x ++ (dumpItemsRest xs ++ ']' :: e)) acc
          = some (.vArr (acc ++ x :: xs), e)) ∧
    (∀ kd v fs acc e, wfV v = true → wfF fs = true →
        keysDistinct (acc ++ (⟨kd⟩, v) :: fs) = true → fuelV v + fuelF fs ≤ f →
        parsePairs f ('"' :: (escJsonStr kd ++ '"' :: ':' :: ' ' ::
            (dumpV v ++ (dumpFieldsRest fs ++ '\x7d' :: e)))) acc
          = some (.vObj (acc ++ (⟨kd⟩, v) :: fs), e)) := by
  induction f with
  | zero =>
      refine ⟨fun v e _ hf _ => absurd hf ?_, fun x xs acc e _ _ hf => absurd hf ?_,
        fun kd v fs acc e _ _ _ hf => absurd hf ?_⟩
      · have := fuelV_pos v; omega
      · have := fuelV_pos x; have := fuelL_pos xs; omega
      · have := fuelV_pos v; have := fuelF_pos fs; omega
  | succ f ih =>
      obtain ⟨ihv, ihi, ihp⟩ := ih
      refine ⟨?_, ?_, ?_⟩
      · -- values
        intro v e hwf hf he
        cases v with
        | vNull => simp only [dumpV]; rfl
        | vBool b => cases b <;> (simp only [dumpV]; rfl)
        | vInt n =>
            simp only [dumpV]
            exact parseVal_intToStr n (f + 1) e (by omega) he
        | vStr s =>
            simp only [dumpV, dumpStr]
            rw [List.cons_append, parseVal.eq_2, skipWs_cons_not _ _ (by decide)]
            dsimp only
            rw [if_neg (by decide), if_neg (by decide), if_pos rfl]
            rw [List.append_assoc, List.singleton_append, strBody_escJsonStr]
            rfl
        | vArr xs =>
            cases xs with
            | nil => simp only [dumpV]; rfl
            | cons x xs =>
                simp only [dumpV]
                rw [List.cons_append, parseVal.eq_2, skipWs_cons_not _ _ (by decide)]
                dsimp only
                rw [if_neg (by decide), if_pos rfl]
                obtain ⟨c, rest, hx, hws, hne1, hne2⟩ := dumpV_head x
                have harr : (dumpV x ++ dumpItemsRest xs ++ [']']) ++ e
                    = c :: (rest ++ (dumpItemsRest xs ++ ']' :: e)) := by
                  rw [hx]; simp
                rw [harr, skipWs_cons_not _ _ hws]
                dsimp only
                rw [if_neg hne1]
                have hfold : c :: (rest ++ (dumpItemsRest xs ++ ']' :: e))
                    = dumpV x ++ (dumpItemsRest xs ++ ']' :: e) := by
                  rw [hx]; simp
                rw [hfold]
                simp only [wfV, wfL, Bool.and_eq_true] at hwf
                simp only [fuelV, fuelL] at hf
                rw [ihi x xs [] e hwf.1 hwf.2 (by omega)]
                rfl
        | vObj fs =>
            rcases fs with _ | ⟨⟨k, v⟩, fs⟩
            · simp only [dumpV]; rfl
            · simp only [dumpV]
              rw [List.cons_append, parseVal.eq_2, skipWs_cons_not _ _ (by decide)]
              dsimp only
              rw [if_pos rfl]
              simp only [dumpStr, List.cons_append, List.append_assoc,
                List.singleton_append, List.nil_append]
              rw [skipWs_cons_not _ _ (by decide)]
              dsimp only
              rw [if_neg (by decide)]
              simp only [wfV, wfF, Bool.and_eq_true] at hwf
              simp only [fuelV, fuelF] at hf
              exact ihp k.data v fs [] e hwf.2.1 hwf.2.2 hwf.1 (by omega)
      · -- array elements
        intro x xs acc e hwx hwxs hf
        rw [parseItems.eq_2]
        have hdb : digitBoundary (dumpItemsRest xs ++ ']' :: e) := by
          cases xs with
          | nil =>
              simp only [dumpItemsRest, List.nil_append]
              exact digitBoundary_cons _ _ (by decide)
          | cons y ys =>
              simp only [dumpItemsRest, List.cons_append]
              exact digitBoundary_cons _ _ (by decide)
        rw [ihv x _ hwx (by have := fuelL_pos xs; omega) hdb]
        dsimp only
        cases xs with
        | nil =>
            simp only [dumpItemsRest, List.nil_append]
            rw [skipWs_cons_not _ _ (by decide)]
            dsimp only
            rw [if_neg (by decide), if_pos rfl]
        | cons y ys =>
            simp only [dumpItemsRest, List.cons_append]
            rw [skipWs_cons_not _ _ (by decide)]
            dsimp only
            rw [if_pos rfl]
            rw [parseItems_ws _ _ _ _ (by decide), List.append_assoc]
            simp only [wfL, Bool.and_eq_true] at hwxs
            simp only [fuelL] at hf
            rw [ihi y ys (acc ++ [x]) e hwxs.1 hwxs.2
              (by have := fuelV_pos x; omega)]
            simp
      · -- object members
        intro kd v fs acc e hwv hwfs hkd hf
        rw [parsePairs.eq_2, if_pos rfl, strBody_escJsonStr]
        dsimp only
        rw [skipWs_cons_not _ _ (by decide)]
        dsimp only
        rw [if_pos rfl]
        rw [parseVal_cons_ws _ _ _ (by decide)]
        have hdb : digitBoundary (dumpFieldsRest fs ++ '\x7d' :: e) := by
          cases fs with
          | nil =>
              simp only [dumpFieldsRest, List.nil_append]
              exact digitBoundary_cons _ _ (by decide)
          | cons p fs2 =>
              obtain ⟨k2, v2⟩ := p
              simp only [dumpFieldsRest, List.cons_append]
              exact digitBoundary_cons _ _ (by decide)
        rw [ihv v _ hwv (by have := fuelF_pos fs; omega) hdb]
        dsimp only
        have hnotin : ∀ p ∈ acc, ¬(p.1 = (⟨kd⟩ : String)) := fun p hp =>
          keysDistinct_cross acc ((⟨kd⟩, v) :: fs) hkd p hp (⟨kd⟩, v)
            (List.mem_cons_self _ _)
        rcases fs with _ | ⟨⟨k2, v2⟩, fs2⟩
        · simp only [dumpFieldsRest, List.nil_append]
          rw [skipWs_cons_not _ _ (by decide)]
          dsimp only
          rw [if_neg (by decide), if_pos rfl, objInsert_append acc _ v hnotin]
        · simp only [dumpFieldsRest, List.cons_append]
          rw [skipWs_cons_not _ _ (by decide)]
          dsimp only
          rw [if_pos rfl, objInsert_append acc _ v hnotin]
          rw [skipWs, if_pos (by decide)]
          simp only [dumpStr, List.cons_append, List.append_assoc,
            List.singleton_append, List.nil_append]
          rw [skipWs_cons_not _ _ (by decide)]
          simp only [wfF, Bool.and_eq_true] at hwfs
          simp only [fuelF] at hf
          have hkd2 : keysDistinct ((acc ++ [((⟨kd⟩ : String), v)])
              ++ (⟨k2.data⟩, v2) :: fs2) = true := by
            rw [List.append_assoc]; exact hkd
          have hrec := ihp k2.data v2 fs2 (acc ++ [((⟨kd⟩ : String), v)])
            e hwfs.1 hwfs.2 hkd2 (by have := fuelV_pos v; omega)
          rw [hrec]
          simp only [List.append_assoc, List.cons_append, List.singleton_append]
          rfl

/-- Re-parsing a dumped well-formed value consumes exactly the dump. -/
theorem parse_dump_val (v : Value) (f : Nat) (e : List Char)
    (hwf : wfV v = true) (hf : fuelV v ≤ f) (he : digitBoundary e) :
    parseVal f (dumpV v ++ e) = some (v, e) :=
  (parse_dump_rt f).1 v e hwf hf he

/-! Assembly of the round-trip claim: fuel adequacy, strip identity,
well-formedness preservation and Validator idempotence. -/

/-- `str.strip()` leaves a string alone when both ends are non-whitespace. -/
theorem pyStrip_id (c d : Char) (mid : List Char)
    (h1 : isPyWs c = false) (h2 : isPyWs d = false) :
    pyStrip ⟨c :: (mid ++ [d])⟩ = ⟨c :: (mid ++ [d])⟩ := by
  simp [pyStrip, List.dropWhile_cons, h1, h2]

/-- The parser fuel a value needs is within the fuel `json.loads` grants
its dump. -/
theorem fuel_dump_bound (n : Nat) :
    (∀ v, fuelV v ≤ n → fuelV v ≤ 2 * (dumpV v).length) ∧
    (∀ xs, fuelL xs ≤ n → fuelL xs ≤ 2 * (dumpItemsRest xs).length + 1) ∧
    (∀ fs, fuelF fs ≤ n → fuelF fs ≤ 2 * (dumpFieldsRest fs).length + 1) := by
  induction n with
  | zero =>
      exact ⟨fun v h => absurd h (by have := fuelV_pos v; omega),
        fun xs h => absurd h (by have := fuelL_pos xs; omega),
        fun fs h => absurd h (by have := fuelF_pos fs; omega)⟩
  | succ n ih =>
      obtain ⟨ihv, ihl, ihf⟩ := ih
      refine ⟨?_, ?_, ?_⟩
      · intro v hv
        cases v with
        | vNull => simp [fuelV, dumpV]
        | vBool b => cases b <;> simp [fuelV, dumpV]
        | vInt m =>
            simp only [fuelV, dumpV]
            cases m with
            | ofNat q =>
                obtain ⟨c, rest, hs, -⟩ := natToStr_head q
                rw [intToStr, hs]
                simp only [List.length_cons]
                omega
            | negSucc q =>
                rw [intToStr]
                simp only [List.length_cons]
                omega
        | vStr s =>
            simp only [fuelV, dumpV, dumpStr, List.length_cons]
            omega
        | vArr xs =>
            cases xs with
            | nil => simp [fuelV, fuelL, dumpV]
            | cons x xs =>
                simp only [fuelV, fuelL] at hv
                have hb1 := ihv x (by omega)
                have hb2 := ihl xs (by have := fuelV_pos x; omega)
                simp only [fuelV, fuelL, dumpV, List.length_cons,
                  List.length_append] at hb1 hb2 ⊢
                omega
        | vObj fs =>
            rcases fs with _ | ⟨⟨k, v⟩, fs⟩
            · simp [fuelV, fuelF, dumpV]
            · simp only [fuelV, fuelF] at hv
              have hb1 := ihv v (by omega)
              have hb2 := ihf fs (by have := fuelV_pos v; omega)
              simp only [fuelV, fuelF, dumpV, dumpStr, List.length_cons,
                List.length_append] at hb1 hb2 ⊢
              omega
      · intro xs hxs
        cases xs with
        | nil => simp [fuelL, dumpItemsRest]
        | cons y ys =>
            simp only [fuelL] at hxs
            have hb1 := ihv y (by have := fuelL_pos ys; omega)
            have hb2 := ihl ys (by have := fuelV_pos y; omega)
            simp only [fuelL, dumpItemsRest, List.length_cons,
              List.length_append] at hb1 hb2 ⊢
            omega
      · intro fs hfs
        rcases fs with _ | ⟨⟨k, v⟩, fs⟩
        · simp [fuelF, dumpFieldsRest]
        · simp only [fuelF] at hfs
          have hb1 := ihv v (by have := fuelF_pos fs; omega)
          have hb2 := ihf fs (by have := fuelV_pos v; omega)
          simp only [fuelF, dumpFieldsRest, dumpStr, List.length_cons,
            List.length_append] at hb1 hb2 ⊢
          omega

/-- `json.loads` inverts `json.dumps` on well-formed values. -/
theorem jsonParse_dump (v : Value) (hwf : wfV v = true) :
    jsonParse ⟨dumpV v⟩ = some v := by
  have hb := (fuel_dump_bound (fuelV v)).1 v le_rfl
  have hp := parse_dump_val v (2 * (dumpV v).length + 2) [] hwf (by omega) trivial
  rw [List.append_nil] at hp
  simp only [jsonParse]
  rw [hp]
  rfl

/-- Keys present after `d[k] = v`: the old keys plus `k`. -/
theorem objInsert_any_key (fs : List (String × Value)) (k : String) (v : Value)
    (k0 : String) :
    ((objInsert fs k v).any (fun p => p.1 == k0))
      = (fs.any (fun p => p.1 == k0) || (k == k0)) := by
  induction fs with
  | nil => simp [objInsert]
  | cons p fs ih =>
      obtain ⟨k1, v1⟩ := p
      by_cases h : k1 = k
      · subst h
        rw [objInsert, if_pos rfl]
        simp only [List.any_cons]
        cases hk : (k1 == k0) <;> simp [hk]
      · rw [objInsert, if_neg h]
        simp only [List.any_cons, ih, Bool.or_assoc]

/-- `d[k] = v` preserves key distinctness. -/
theorem keysDistinct_objInsert (fs : List (String × Value)) (k : String) (v : Value)
    (h : keysDistinct fs = true) : keysDistinct (objInsert fs k v) = true := by
  induction fs with
  | nil => simp [objInsert, keysDistinct]
  | cons p fs ih =>
      obtain ⟨k1, v1⟩ := p
      rw [keysDistinct, Bool.and_eq_true] at h
      by_cases hk : k1 = k
      · subst hk
        rw [objInsert, if_pos rfl, keysDistinct, Bool.and_eq_true]
        exact ⟨h.1, h.2⟩
      · rw [objInsert, if_neg hk, keysDistinct, Bool.and_eq_true]
        refine ⟨?_, ih h.2⟩
        rw [objInsert_any_key]
        have hkk : (k == k1) = false := by
          simp only [beq_eq_false_iff_ne, ne_eq]
          exact fun he => hk he.symm
        rw [hkk, Bool.or_false]
        exact h.1

/-- `d[k] = v` preserves member well-formedness when `v` is well-formed. -/
theorem wfF_objInsert (fs : List (String × Value)) (k : String) (v : Value)
    (hfs : wfF fs = true) (hv : wfV v = true) : wfF (objInsert fs k v) = true := by
  induction fs with
  | nil =>
      rw [objInsert, wfF, Bool.and_eq_true]
      exact ⟨hv, rfl⟩
  | cons p fs ih =>
      obtain ⟨k1, v1⟩ := p
      rw [wfF, Bool.and_eq_true] at hfs
      by_cases hk : k1 = k
      · subst hk
        rw [objInsert, if_pos rfl, wfF, Bool.and_eq_true]
        exact ⟨hv, hfs.2⟩
      · rw [objInsert, if_neg hk, wfF, Bool.and_eq_true]
        exact ⟨hfs.1, ih hfs.2⟩

/-- The coerced `target` is a well-formed scalar. -/
theorem coerceTarget_wf (o : Option Value) : wfV (coerceTarget o) = true := by
  rcases coerceTarget_cases o with h | ⟨s, h⟩ <;> rw [h] <;> rfl

/-- The coerced `text` is a well-formed scalar. -/
theorem coerceText_wf (o : Option Value) : wfV (coerceText o) = true := by
  obtain ⟨s, h⟩ := coerceText_vStr o
  rw [h]
  rfl

/-- `validate_tool` preserves well-formedness of the (possibly mutated)
object. -/
theorem wfV_validate (X : Value) (hwf : wfV X = true) :
    wfV (validate_tool X).2 = true := by
  cases X with
  | vObj fs =>
      simp only [validate_tool]
      cases hl : objLookup fs "action" with
      | none => exact hwf
      | some t =>
          cases t with
          | vStr a =>
              dsimp only
              by_cases hc : pyStrip (pyLower a) ∈ ALLOWED_ACTIONS
              · rw [if_pos hc]
                rw [wfV, Bool.and_eq_true] at hwf ⊢
                refine ⟨?_, ?_⟩
                · exact keysDistinct_objInsert _ _ _
                    (keysDistinct_objInsert _ _ _
                      (keysDistinct_objInsert _ _ _ hwf.1))
                · exact wfF_objInsert _ _ _
                    (wfF_objInsert _ _ _ (wfF_objInsert _ _ _ hwf.2 rfl)
                      (coerceTarget_wf _))
                    (coerceText_wf _)
              · rw [if_neg hc]
                exact hwf
          | vNull => exact hwf
          | vBool b => exact hwf
          | vInt n => exact hwf
          | vArr xs => exact hwf
          | vObj gs => exact hwf
  | vNull => exact hwf
  | vBool b => exact hwf
  | vInt n => exact hwf
  | vStr s => exact hwf
  | vArr xs => exact hwf

/-- Writing back the value a key already holds is the identity. -/
theorem objInsert_self_of_lookup (fs : List (String × Value)) (k : String)
    (v : Value) (h : objLookup fs k = some v) : objInsert fs k v = fs := by
  induction fs with
  | nil => simp [objLookup] at h
  | cons p fs ih =>
      obtain ⟨k1, v1⟩ := p
      rw [objLookup] at h
      by_cases hk : k1 = k
      · rw [if_pos hk] at h
        injection h with h
        rw [objInsert, if_pos hk, h]
      · rw [if_neg hk] at h
        rw [objInsert, if_neg hk, ih h]

/-- Re-validating a validated object accepts and changes nothing. -/
theorem validate_tool_idem (X : Value) (hacc : (validate_tool X).1 = true) :
    validate_tool ((validate_tool X).2) = (true, (validate_tool X).2) := by
  obtain ⟨fs, hshape, ⟨a, ha, hmem⟩, htgt, ⟨st, htxt⟩⟩ := validate_tool_shape X hacc
  rw [hshape]
  simp only [validate_tool, ha]
  have hnorm : pyStrip (pyLower a) = a := by
    fin_cases hmem <;> decide
  rw [hnorm, if_pos hmem]
  have h1 : setActionF fs a = fs := objInsert_self_of_lookup _ _ _ ha
  rw [h1]
  have h2 : setTargetF fs = fs := by
    unfold setTargetF
    rcases htgt with h | ⟨s, h⟩
    · rw [h]
      exact objInsert_self_of_lookup _ _ _ h
    · rw [h]
      exact objInsert_self_of_lookup _ _ _ h
  rw [h2]
  have h3 : setTextF fs = fs := by
    unfold setTextF
    rw [htxt]
    exact objInsert_self_of_lookup _ _ _ htxt
  rw [h3]

/-- `str.strip()` is the identity on a dumped object. -/
theorem pyStrip_dump_obj (fs : List (String × Value)) :
    pyStrip ⟨dumpV (.vObj fs)⟩ = ⟨dumpV (.vObj fs)⟩ := by
  rcases fs with _ | ⟨⟨k, v⟩, fs⟩
  · simp only [dumpV]
    exact pyStrip_id '\x7b' '\x7d' [] (by decide) (by decide)
  · simp only [dumpV]
    exact pyStrip_id '\x7b' '\x7d' _ (by decide) (by decide)

/-- C7: round-trip — for every well-formed tool object X that the Validator
accepts, serializing the validated result with `json.dumps`, running the
Extractor `parse_tool_json` on that text, and validating again reproduces
the validated form of X: the Extractor returns exactly `validate(X)` (its
first candidate, the stripped text itself, parses back to the validated
object and re-validation accepts it unchanged). -/
theorem c7_validate_dump_roundtrip (X : Value) (hwf : wfV X = true)
    (hacc : (validate_tool X).1 = true) :
    parse_tool_json (jsonDumps (validate_tool X).2) = some ((validate_tool X).2) ∧
    validate_tool ((validate_tool X).2) = (true, (validate_tool X).2) := by
  have hidem := validate_tool_idem X hacc
  refine ⟨?_, hidem⟩
  obtain ⟨fs, hshape, -, -, -⟩ := validate_tool_shape X hacc
  have hwf2 : wfV (validate_tool X).2 = true := wfV_validate X hwf
  rw [hshape] at hwf2 hidem ⊢
  simp only [parse_tool_json, jsonDumps]
  rw [pyStrip_dump_obj fs]
  dsimp only
  simp only [List.singleton_append, List.cons_append]
  rw [tryCands.eq_2, jsonParse_dump _ hwf2]
  dsimp only
  rw [hidem]

/-- Witness for C7 at the concrete tool `{"action": "click"}`. -/
theorem c7_validate_dump_roundtrip_witness :
    wfV (.vObj [("action", .vStr "click")]) = true ∧
    (validate_tool (.vObj [("action", .vStr "click")])).1 = true ∧
    (parse_tool_json (jsonDumps (validate_tool (.vObj [("action", .vStr "click")])).2)
        = some ((validate_tool (.vObj [("action", .vStr "click")])).2) ∧
      validate_tool ((validate_tool (.vObj [("action", .vStr "click")])).2)
        = (true, (validate_tool (.vObj [("action", .vStr "click")])).2)) :=
  ⟨by decide, by decide,
    c7_validate_dump_roundtrip (.vObj [("action", .vStr "click")])
      (by decide) (by decide)⟩

/-- C2 counterexample: the text `{"action": "click", "text": "a{b"} }`
contains exactly one well-formed JSON object slice — the valid click tool
`{"action": "click", "text": "a{b"}` — yet `parse_tool_json` returns
`None`: the brace embedded in the string field and the stray closing brace
defeat every candidate strategy (whole text, first-brace-to-last-brace
slice, quote replacement, and the brace-free regex matches). -/
theorem c2_extractor_misses_embedded_brace_cex :
    objSliceCount ("\x7b\"action\": \"click\", \"text\": \"a\x7bb\"\x7d \x7d" : String).data = 1 ∧
    isJsonObjStr (sliceL ("\x7b\"action\": \"click\", \"text\": \"a\x7bb\"\x7d \x7d" : String).data 0 34) = true ∧
    jsonParse ⟨sliceL ("\x7b\"action\": \"click\", \"text\": \"a\x7bb\"\x7d \x7d" : String).data 0 34⟩
      = some (.vObj [("action", .vStr "click"), ("text", .vStr "a\x7bb")]) ∧
    (validate_tool (.vObj [("action", .vStr "click"), ("text", .vStr "a\x7bb")])).1 = true ∧
    parse_tool_json "\x7b\"action\": \"click\", \"text\": \"a\x7bb\"\x7d \x7d" = none :=
  ⟨by decide, rfl, rfl, rfl, rfl⟩

/-! Extension machinery: a successful parse is stable under appending text
after the consumed prefix, and `parse_tool_json`'s candidate slicing on
prose-wrapped object texts. -/

theorem skipWs_append_of_cons (cs : List Char) (c : Char) (r e : List Char)
    (h : skipWs cs = c :: r) : skipWs (cs ++ e) = c :: (r ++ e) := by
  induction cs with
  | nil => cases h
  | cons d ds ih =>
      rw [skipWs] at h
      rw [List.cons_append, skipWs]
      by_cases hw : isJsonWs d = true
      · rw [if_pos hw] at h
        rw [if_pos hw]
        exact ih h
      · rw [if_neg hw] at h
        rw [if_neg hw]
        injection h with h1 h2
        rw [h1, h2]

theorem jsonWs_pyWs (c : Char) (h : isJsonWs c = true) : isPyWs c = true := by
  simp only [isJsonWs, Bool.or_eq_true, decide_eq_true_eq] at h
  rcases h with ((h | h) | h) | h <;> subst h <;> decide

theorem skipWs_ne_nil (cs : List Char) (c : Char) (hc : c ∈ cs)
    (hw : isPyWs c = false) : skipWs cs ≠ [] := by
  induction cs with
  | nil => cases hc
  | cons d ds ih =>
      rw [skipWs]
      by_cases hd : isJsonWs d = true
      · rw [if_pos hd]
        rcases List.mem_cons.1 hc with rfl | hc2
        · exact absurd (jsonWs_pyWs c hd) (by simp [hw])
        · exact ih hc2
      · rw [if_neg hd]
        simp

theorem dropWhile_append_stop (p : Char → Bool) (l1 l2 : List Char) (c : Char)
    (t : List Char) (h : l1.dropWhile p = c :: t) :
    (l1 ++ l2).dropWhile p = c :: (t ++ l2) := by
  induction l1 with
  | nil => cases h
  | cons d ds ih =>
      rw [List.dropWhile_cons] at h
      rw [List.cons_append, List.dropWhile_cons]
      by_cases hd : p d = true
      · rw [if_pos hd] at h
        rw [if_pos hd]
        exact ih h
      · rw [if_neg hd] at h
        rw [if_neg hd]
        injection h with h1 h2
        rw [h1, h2]

theorem dropWhile_append_all (p : Char → Bool) (l1 l2 : List Char)
    (h : l1.dropWhile p = []) : (l1 ++ l2).dropWhile p = l2.dropWhile p := by
  induction l1 with
  | nil => rfl
  | cons d ds ih =>
      rw [List.dropWhile_cons] at h
      rw [List.cons_append, List.dropWhile_cons]
      by_cases hd : p d = true
      · rw [if_pos hd] at h
        rw [if_pos hd]
        exact ih h
      · rw [if_neg hd] at h
        cases h

theorem dropWhile_append_single (p : Char → Bool) (L : List Char) (c0 : Char)
    (h : p c0 = false) : (L ++ [c0]).dropWhile p = L.dropWhile p ++ [c0] := by
  induction L with
  | nil => simp [List.dropWhile_cons, h]
  | cons d ds ih =>
      rw [List.cons_append, List.dropWhile_cons, List.dropWhile_cons]
      by_cases hd : p d = true
      · rw [if_pos hd, if_pos hd]
        exact ih
      · rw [if_neg hd, if_neg hd, List.cons_append]

theorem takeWhile_append_stop (p : Char → Bool) (l1 l2 : List Char) (c : Char)
    (t : List Char) (h : l1.dropWhile p = c :: t) :
    (l1 ++ l2).takeWhile p = l1.takeWhile p := by
  induction l1 with
  | nil => cases h
  | cons d ds ih =>
      rw [List.dropWhile_cons] at h
      rw [List.cons_append, List.takeWhile_cons, List.takeWhile_cons]
      by_cases hd : p d = true
      · rw [if_pos hd] at h
        rw [if_pos hd, if_pos hd, ih h]
      · rw [if_neg hd, if_neg hd]

/-- A successful integer parse is stable under appending, provided a
digit-run at the very end is not extended. -/
theorem parseNat_ext (cs : List Char) (m : Nat) (r e : List Char)
    (h : parseNat cs = some (m, r)) (hre : r = [] → digitBoundary e) :
    parseNat (cs ++ e) = some (m, r ++ e) := by
  cases cs with
  | nil => cases h
  | cons c cs =>
      rw [parseNat] at h
      rw [List.cons_append, parseNat]
      by_cases h0 : c = '0'
      · rw [if_pos h0] at h
        rw [if_pos h0]
        injection h with h
        injection h with h1 h2
        rw [← h1, ← h2]
      · rw [if_neg h0] at h
        rw [if_neg h0]
        by_cases hd : isDigitC c = true
        · rw [if_pos hd] at h
          rw [if_pos hd]
          injection h with h
          injection h with h1 h2
          cases hdrop : cs.dropWhile isDigitC with
          | nil =>
              have hall : ∀ x ∈ cs, isDigitC x = true :=
                List.dropWhile_eq_nil_iff.1 hdrop
              have hr : r = [] := by rw [← h2, hdrop]
              have hdb := hre hr
              have hsplit := takeWhile_all_append isDigitC cs e hall
                (fun c' r' hcr => by rw [hcr] at hdb; exact hdb)
              rw [hsplit.1, hsplit.2, ← h1]
              have htake : cs.takeWhile isDigitC = cs :=
                List.takeWhile_eq_self_iff.2 hall
              rw [htake, hr]
              rfl
          | cons d t =>
              rw [takeWhile_append_stop isDigitC cs e d t hdrop,
                dropWhile_append_stop isDigitC cs e d t hdrop]
              rw [← h1, ← h2, hdrop]
              rfl
        · rw [if_neg hd] at h
          cases h

/-- A successful string-literal parse is stable under appending after the
closing quote (joint statement for the four mutual string parsers). -/
theorem str_ext (n : Nat) : ∀ cs : List Char, cs.length ≤ n →
    (∀ p q e, strBody cs = some (p, q) → strBody (cs ++ e) = some (p, q ++ e)) ∧
    (∀ p q e, strEsc cs = some (p, q) → strEsc (cs ++ e) = some (p, q ++ e)) ∧
    (∀ m p q e, strPair m cs = some (p, q) → strPair m (cs ++ e) = some (p, q ++ e)) ∧
    (∀ p q e, strU cs = some (p, q) → strU (cs ++ e) = some (p, q ++ e)) := by
  induction n with
  | zero =>
      intro cs hcs
      have hnil : cs = [] := List.length_eq_zero.1 (Nat.le_zero.1 hcs)
      subst hnil
      exact ⟨fun p q e h => (by cases h), fun p q e h => (by cases h),
        fun m p q e h => (by cases h), fun p q e h => (by cases h)⟩
  | succ n ih =>
      intro cs hcs
      refine ⟨?_, ?_, ?_, ?_⟩
      · intro p q e h
        cases cs with
        | nil => cases h
        | cons c cs =>
            rw [List.length_cons] at hcs
            rw [strBody.eq_2] at h
            rw [List.cons_append, strBody.eq_2]
            by_cases h1 : c = '"'
            · rw [if_pos h1] at h
              rw [if_pos h1]
              injection h with h
              injection h with ha hb
              rw [← ha, ← hb]
            · rw [if_neg h1] at h
              rw [if_neg h1]
              by_cases h2 : c = '\\'
              · rw [if_pos h2] at h
                rw [if_pos h2]
                exact (ih cs (by omega)).2.1 p q e h
              · rw [if_neg h2] at h
                rw [if_neg h2]
                by_cases h3 : c.toNat < 0x20
                · rw [if_pos h3] at h
                  cases h
                · rw [if_neg h3] at h
                  rw [if_neg h3]
                  cases hb : strBody cs with
                  | none => rw [hb] at h; cases h
                  | some pr =>
                      obtain ⟨p1, q1⟩ := pr
                      rw [hb, Option.map_some'] at h
                      injection h with h
                      injection h with ha hbq
                      rw [(ih cs (by omega)).1 p1 q1 e hb, Option.map_some',
                        ← ha, ← hbq]
      · intro p q e h
        cases cs with
        | nil => cases h
        | cons x rest =>
            rw [List.length_cons] at hcs
            rw [strEsc.eq_2] at h
            rw [List.cons_append, strEsc.eq_2]
            by_cases h1 : x = 'u'
            · rw [if_pos h1] at h
              rw [if_pos h1]
              exact (ih rest (by omega)).2.2.2 p q e h
            · rw [if_neg h1] at h
              rw [if_neg h1]
              cases hec : escChar x with
              | none => rw [hec] at h; cases h
              | some ch =>
                  rw [hec] at h
                  dsimp only at h ⊢
                  cases hb : strBody rest with
                  | none => rw [hb] at h; cases h
                  | some pr =>
                      obtain ⟨p1, q1⟩ := pr
                      rw [hb, Option.map_some'] at h
                      injection h with h
                      injection h with ha hbq
                      rw [(ih rest (by omega)).1 p1 q1 e hb, Option.map_some',
                        ← ha, ← hbq]
      · intro m p q e h
        rw [strPair.eq_def] at h
        split at h
        · next a2 b2 d2 e2 cs3 =>
            rw [List.length_cons, List.length_cons, List.length_cons,
              List.length_cons, List.length_cons, List.length_cons] at hcs
            have hred : strPair m
                (('\\' :: 'u' :: a2 :: b2 :: d2 :: e2 :: cs3) ++ e)
                = match hex4 a2 b2 d2 e2 with
                  | none => none
                  | some mm =>
                      if 0xDC00 ≤ mm ∧ mm ≤ 0xDFFF then
                        (strBody (cs3 ++ e)).map (fun p =>
                          (Char.ofNat (0x10000 + (m - 0xD800) * 0x400
                            + (mm - 0xDC00)) :: p.1, p.2))
                      else none := rfl
            rw [hred]
            cases hh : hex4 a2 b2 d2 e2 with
            | none => rw [hh] at h; cases h
            | some mm =>
                rw [hh] at h
                dsimp only at h ⊢
                by_cases hs : 0xDC00 ≤ mm ∧ mm ≤ 0xDFFF
                · rw [if_pos hs] at h
                  rw [if_pos hs]
                  cases hb : strBody cs3 with
                  | none => rw [hb] at h; cases h
                  | some pr =>
                      obtain ⟨p1, q1⟩ := pr
                      rw [hb, Option.map_some'] at h
                      injection h with h
                      injection h with ha hbq
                      rw [(ih cs3 (by omega)).1 p1 q1 e hb, Option.map_some',
                        ← ha, ← hbq]
                · rw [if_neg hs] at h
                  cases h
        · cases h
      · intro p q e h
        rcases cs with _ | ⟨a2, _ | ⟨b2, _ | ⟨d2, _ | ⟨e2, cs2⟩⟩⟩⟩
        · cases h
        · cases h
        · cases h
        · cases h
        · rw [List.length_cons, List.length_cons, List.length_cons,
            List.length_cons] at hcs
          rw [strU.eq_1] at h
          rw [List.cons_append, List.cons_append, List.cons_append,
            List.cons_append, strU.eq_1]
          cases hh : hex4 a2 b2 d2 e2 with
          | none => rw [hh] at h; cases h
          | some n2 =>
              rw [hh] at h
              dsimp only at h ⊢
              by_cases hs1 : 0xD800 ≤ n2 ∧ n2 ≤ 0xDBFF
              · rw [if_pos hs1] at h
                rw [if_pos hs1]
                exact (ih cs2 (by omega)).2.2.1 n2 p q e h
              · rw [if_neg hs1] at h
                rw [if_neg hs1]
                by_cases hs2 : 0xDC00 ≤ n2 ∧ n2 ≤ 0xDFFF
                · rw [if_pos hs2] at h
                  cases h
                · rw [if_neg hs2] at h
                  rw [if_neg hs2]
                  cases hb : strBody cs2 with
                  | none => rw [hb] at h; cases h
                  | some pr =>
                      obtain ⟨p1, q1⟩ := pr
                      rw [hb, Option.map_some'] at h
                      injection h with h
                      injection h with ha hbq
                      rw [(ih cs2 (by omega)).1 p1 q1 e hb, Option.map_some',
                        ← ha, ← hbq]

/-- A successful parse is stable under raising the fuel and appending input
after the consumed prefix (the only unsafe case is an integer ending the
input, which appended digits could extend). -/
theorem parse_ext (f : Nat) : ∀ g, f ≤ g →
    (∀ cs v r e, parseVal f cs = some (v, r) →
        (r = [] → digitBoundary e ∨ ∀ n : Int, v ≠ .vInt n) →
        parseVal g (cs ++ e) = some (v, r ++ e)) ∧
    (∀ cs acc v r e, parseItems f cs acc = some (v, r) →
        parseItems g (cs ++ e) acc = some (v, r ++ e)) ∧
    (∀ cs acc v r e, parsePairs f cs acc = some (v, r) →
        parsePairs g (cs ++ e) acc = some (v, r ++ e)) := by
  induction f with
  | zero =>
      intro g hg
      exact ⟨fun cs v r e h _ => (by cases h), fun cs acc v r e h => (by cases h),
        fun cs acc v r e h => (by cases h)⟩
  | succ f ihf =>
      intro g hg
      obtain ⟨g, rfl⟩ : ∃ gp, g = gp + 1 := ⟨g - 1, by omega⟩
      obtain ⟨ihv, ihi, ihp⟩ := ihf g (by omega)
      refine ⟨?_, ?_, ?_⟩
      · intro cs v r e h hcond
        rw [parseVal.eq_2] at h
        rw [parseVal.eq_2]
        cases hsw : skipWs cs with
        | nil => rw [hsw] at h; cases h
        | cons c r0 =>
            rw [hsw] at h
            rw [skipWs_append_of_cons cs c r0 e hsw]
            dsimp only at h ⊢
            by_cases h1 : c = '\x7b'
            · rw [if_pos h1] at h ⊢
              cases hsw2 : skipWs r0 with
              | nil => rw [hsw2] at h; cases h
              | cons c2 r2 =>
                  rw [hsw2] at h
                  rw [skipWs_append_of_cons r0 c2 r2 e hsw2]
                  dsimp only at h ⊢
                  by_cases h2 : c2 = '\x7d'
                  · rw [if_pos h2] at h ⊢
                    injection h with h
                    injection h with ha hb
                    rw [← ha, ← hb]
                  · rw [if_neg h2] at h ⊢
                    exact ihp (c2 :: r2) [] v r e h
            · rw [if_neg h1] at h ⊢
              by_cases h2 : c = '['
              · rw [if_pos h2] at h ⊢
                cases hsw2 : skipWs r0 with
                | nil => rw [hsw2] at h; cases h
                | cons c2 r2 =>
                    rw [hsw2] at h
                    rw [skipWs_append_of_cons r0 c2 r2 e hsw2]
                    dsimp only at h ⊢
                    by_cases h3 : c2 = ']'
                    · rw [if_pos h3] at h ⊢
                      injection h with h
                      injection h with ha hb
                      rw [← ha, ← hb]
                    · rw [if_neg h3] at h ⊢
                      exact ihi (c2 :: r2) [] v r e h
              · rw [if_neg h2] at h ⊢
                by_cases h3 : c = '"'
                · rw [if_pos h3] at h ⊢
                  cases hb : strBody r0 with
                  | none => rw [hb] at h; cases h
                  | some pr =>
                      obtain ⟨p1, q1⟩ := pr
                      rw [hb, Option.map_some'] at h
                      rw [(str_ext r0.length r0 le_rfl).1 p1 q1 e hb,
                        Option.map_some']
                      injection h with h
                      injection h with ha hbq
                      rw [← ha, ← hbq]
                · rw [if_neg h3] at h ⊢
                  by_cases h4 : c = 't'
                  · rw [if_pos h4] at h ⊢
                    split at h
                    · next r2 =>
                        injection h with h
                        injection h with ha hbq
                        rw [← ha, ← hbq]
                        rfl
                    · cases h
                  · rw [if_neg h4] at h ⊢
                    by_cases h5 : c = 'f'
                    · rw [if_pos h5] at h ⊢
                      split at h
                      · next r2 =>
                          injection h with h
                          injection h with ha hbq
                          rw [← ha, ← hbq]
                          rfl
                      · cases h
                    · rw [if_neg h5] at h ⊢
                      by_cases h6 : c = 'n'
                      · rw [if_pos h6] at h ⊢
                        split at h
                        · next r2 =>
                            injection h with h
                            injection h with ha hbq
                            rw [← ha, ← hbq]
                            rfl
                        · cases h
                      · rw [if_neg h6] at h ⊢
                        by_cases h7 : c = '-'
                        · rw [if_pos h7] at h ⊢
                          cases hn : parseNat r0 with
                          | none => rw [hn] at h; cases h
                          | some pn =>
                              obtain ⟨m, rest⟩ := pn
                              rw [hn, Option.map_some'] at h
                              injection h with h
                              injection h with ha hbq
                              have hcond2 : rest = [] → digitBoundary e := by
                                intro hrest
                                rcases hcond (by rw [← hbq]; exact hrest) with
                                  hdb | habs
                                · exact hdb
                                · exact absurd ha.symm (habs _)
                              rw [parseNat_ext r0 m rest e hn hcond2,
                                Option.map_some', ← ha, ← hbq]
                        · rw [if_neg h7] at h ⊢
                          by_cases h8 : isDigitC c = true
                          · rw [if_pos h8] at h ⊢
                            cases hn : parseNat (c :: r0) with
                            | none => rw [hn] at h; cases h
                            | some pn =>
                                obtain ⟨m, rest⟩ := pn
                                rw [hn, Option.map_some'] at h
                                injection h with h
                                injection h with ha hbq
                                have hcond2 : rest = [] → digitBoundary e := by
                                  intro hrest
                                  rcases hcond (by rw [← hbq]; exact hrest) with
                                    hdb | habs
                                  · exact hdb
                                  · exact absurd ha.symm (habs _)
                                have hext := parseNat_ext (c :: r0) m rest e hn hcond2
                                rw [List.cons_append] at hext
                                rw [hext, Option.map_some', ← ha, ← hbq]
                          · rw [if_neg h8] at h
                            cases h
      · intro cs acc v r e h
        rw [parseItems.eq_2] at h
        rw [parseItems.eq_2]
        cases hpv : parseVal f cs with
        | none => rw [hpv] at h; cases h
        | some pv =>
            obtain ⟨v0, r0⟩ := pv
            rw [hpv] at h
            dsimp only at h
            cases hsw : skipWs r0 with
            | nil => rw [hsw] at h; cases h
            | cons c r2 =>
                rw [hsw] at h
                have hr0 : r0 ≠ [] := fun hr => by rw [hr] at hsw; cases hsw
                rw [ihv cs v0 r0 e hpv (fun hr => absurd hr hr0)]
                dsimp only
                rw [skipWs_append_of_cons r0 c r2 e hsw]
                dsimp only at h ⊢
                by_cases hc : c = ','
                · rw [if_pos hc] at h ⊢
                  exact ihi r2 (acc ++ [v0]) v r e h
                · rw [if_neg hc] at h ⊢
                  by_cases hc2 : c = ']'
                  · rw [if_pos hc2] at h ⊢
                    injection h with h
                    injection h with ha hbq
                    rw [← ha, ← hbq]
                  · rw [if_neg hc2] at h
                    cases h
      · intro cs acc v r e h
        cases cs with
        | nil => cases h
        | cons c cr =>
            rw [parsePairs.eq_2] at h
            rw [List.cons_append, parsePairs.eq_2]
            by_cases h1 : c = '"'
            · rw [if_pos h1] at h ⊢
              cases hb : strBody cr with
              | none => rw [hb] at h; cases h
              | some pr =>
                  obtain ⟨k1, r1⟩ := pr
                  rw [hb] at h
                  rw [(str_ext cr.length cr le_rfl).1 k1 r1 e hb]
                  dsimp only at h ⊢
                  cases hsw : skipWs r1 with
                  | nil => rw [hsw] at h; cases h
                  | cons c2 r2 =>
                      rw [hsw] at h
                      rw [skipWs_append_of_cons r1 c2 r2 e hsw]
                      dsimp only at h ⊢
                      by_cases h2 : c2 = ':'
                      · rw [if_pos h2] at h ⊢
                        cases hpv : parseVal f r2 with
                        | none => rw [hpv] at h; cases h
                        | some pv =>
                            obtain ⟨v0, r3⟩ := pv
                            rw [hpv] at h
                            dsimp only at h
                            cases hsw3 : skipWs r3 with
                            | nil => rw [hsw3] at h; cases h
                            | cons c4 r4 =>
                                rw [hsw3] at h
                                have hr3 : r3 ≠ [] := fun hr => by
                                  rw [hr] at hsw3; cases hsw3
                                rw [ihv r2 v0 r3 e hpv (fun hr => absurd hr hr3)]
                                dsimp only
                                rw [skipWs_append_of_cons r3 c4 r4 e hsw3]
                                dsimp only at h ⊢
                                by_cases h4 : c4 = ','
                                · rw [if_pos h4] at h ⊢
                                  cases hsw4 : skipWs r4 with
                                  | nil =>
                                      rw [hsw4] at h
                                      have hnone : parsePairs f ([] : List Char)
                                          (objInsert acc ⟨k1⟩ v0) = none := by
                                        cases f <;> rfl
                                      rw [hnone] at h
                                      cases h
                                  | cons c5 r5 =>
                                      rw [hsw4] at h
                                      rw [skipWs_append_of_cons r4 c5 r5 e hsw4]
                                      exact ihp (c5 :: r5) _ v r e h
                                · rw [if_neg h4] at h ⊢
                                  by_cases h5 : c4 = '\x7d'
                                  · rw [if_pos h5] at h ⊢
                                    injection h with h
                                    injection h with ha hbq
                                    rw [← ha, ← hbq]
                                  · rw [if_neg h5] at h
                                    cases h
                      · rw [if_neg h2] at h
                        cases h
            · rw [if_neg h1] at h
              cases h

/-- `parseItems` only ever returns arrays. -/
theorem parseItems_vArr (f : Nat) : ∀ cs acc v r,
    parseItems f cs acc = some (v, r) → ∃ xs, v = .vArr xs := by
  induction f with
  | zero => intro cs acc v r h; cases h
  | succ f ih =>
      intro cs acc v r h
      rw [parseItems.eq_2] at h
      cases hpv : parseVal f cs with
      | none => rw [hpv] at h; cases h
      | some pv =>
          obtain ⟨v0, r0⟩ := pv
          rw [hpv] at h
          dsimp only at h
          cases hsw : skipWs r0 with
          | nil => rw [hsw] at h; cases h
          | cons c r2 =>
              rw [hsw] at h
              dsimp only at h
              by_cases hc : c = ','
              · rw [if_pos hc] at h
                exact ih _ _ _ _ h
              · rw [if_neg hc] at h
                by_cases hc2 : c = ']'
                · rw [if_pos hc2] at h
                  injection h with h
                  injection h with ha hb
                  exact ⟨_, ha.symm⟩
                · rw [if_neg hc2] at h
                  cases h

/-- A `parseVal` result of object shape starts at an opening brace. -/
theorem parseVal_vObj_head (f : Nat) (cs : List Char) (gs : List (String × Value))
    (r : List Char) (h : parseVal f cs = some (.vObj gs, r)) :
    ∃ r0, skipWs cs = '\x7b' :: r0 := by
  cases f with
  | zero => cases h
  | succ f =>
      rw [parseVal.eq_2] at h
      cases hsw : skipWs cs with
      | nil => rw [hsw] at h; cases h
      | cons c r0 =>
          rw [hsw] at h
          dsimp only at h
          by_cases h1 : c = '\x7b'
          · exact ⟨r0, by rw [h1]⟩
          · exfalso
            rw [if_neg h1] at h
            by_cases h2 : c = '['
            · rw [if_pos h2] at h
              cases hsw2 : skipWs r0 with
              | nil => rw [hsw2] at h; cases h
              | cons c2 r2 =>
                  rw [hsw2] at h
                  dsimp only at h
                  by_cases h3 : c2 = ']'
                  · rw [if_pos h3] at h
                    injection h with h
                    injection h with ha hb
                    cases ha
                  · rw [if_neg h3] at h
                    obtain ⟨xs, hxs⟩ := parseItems_vArr f _ _ _ _ h
                    cases hxs
            · rw [if_neg h2] at h
              by_cases h3 : c = '"'
              · rw [if_pos h3] at h
                cases hb : strBody r0 with
                | none => rw [hb] at h; cases h
                | some pr =>
                    rw [hb, Option.map_some'] at h
                    injection h with h
                    injection h with ha hb2
                    cases ha
              · rw [if_neg h3] at h
                by_cases h4 : c = 't'
                · rw [if_pos h4] at h
                  split at h
                  · injection h with h
                    injection h with ha hb2
                    cases ha
                  · cases h
                · rw [if_neg h4] at h
                  by_cases h5 : c = 'f'
                  · rw [if_pos h5] at h
                    split at h
                    · injection h with h
                      injection h with ha hb2
                      cases ha
                    · cases h
                  · rw [if_neg h5] at h
                    by_cases h6 : c = 'n'
                    · rw [if_pos h6] at h
                      split at h
                      · injection h with h
                        injection h with ha hb2
                        cases ha
                      · cases h
                    · rw [if_neg h6] at h
                      by_cases h7 : c = '-'
                      · rw [if_pos h7] at h
                        cases hn : parseNat r0 with
                        | none => rw [hn] at h; cases h
                        | some pn =>
                            rw [hn, Option.map_some'] at h
                            injection h with h
                            injection h with ha hb2
                            cases ha
                      · rw [if_neg h7] at h
                        by_cases h8 : isDigitC c = true
                        · rw [if_pos h8] at h
                          cases hn : parseNat (c :: r0) with
                          | none => rw [hn] at h; cases h
                          | some pn =>
                              rw [hn, Option.map_some'] at h
                              injection h with h
                              injection h with ha hb2
                              cases ha
                        · rw [if_neg h8] at h
                          cases h

/-- The Validator only accepts dictionaries. -/
theorem validate_accept_vObj (v : Value) (h : (validate_tool v).1 = true) :
    ∃ gs, v = .vObj gs := by
  cases v with
  | vObj fs => exact ⟨fs, rfl⟩
  | vNull => exact absurd h (by decide)
  | vBool b => cases b <;> exact absurd h (by decide)
  | vInt n => exact absurd h (by simp [validate_tool])
  | vStr s => exact absurd h (by simp [validate_tool])
  | vArr xs => exact absurd h (by simp [validate_tool])

/-- Behind a `json.loads` success there is a `parseVal` success. -/
theorem jsonParse_some_inv (s : String) (v : Value)
    (h : jsonParse s = some v) :
    ∃ r, parseVal (2 * s.data.length + 2) s.data = some (v, r) := by
  rw [jsonParse] at h
  cases hpv : parseVal (2 * s.data.length + 2) s.data with
  | none => rw [hpv] at h; cases h
  | some pv =>
      obtain ⟨v0, r0⟩ := pv
      rw [hpv] at h
      dsimp only at h
      by_cases he : (skipWs r0).isEmpty = true
      · rw [if_pos he] at h
        injection h with h
        exact ⟨r0, by rw [h]⟩
      · rw [if_neg he] at h
        cases h

/-- A candidate whose parse fails is skipped. -/
theorem tryCands_skip_parse (c : List Char) (rest : List (List Char))
    (h : jsonParse ⟨c⟩ = none) : tryCands (c :: rest) = tryCands rest := by
  rw [tryCands.eq_2, h]

/-- A candidate the Validator rejects is skipped. -/
theorem tryCands_skip_invalid (c : List Char) (rest : List (List Char))
    (obj : Value) (h : jsonParse ⟨c⟩ = some obj)
    (hv : (validate_tool obj).1 = false) :
    tryCands (c :: rest) = tryCands rest := by
  rw [tryCands.eq_2, h]
  dsimp only
  cases hvt : validate_tool obj with
  | mk b o2 =>
      rw [hvt] at hv
      dsimp only at hv
      rw [hv]

/-- A candidate that parses and validates ends the search with the
normalised object. -/
theorem tryCands_hit (c : List Char) (rest : List (List Char)) (obj : Value)
    (h : jsonParse ⟨c⟩ = some obj) (hv : (validate_tool obj).1 = true) :
    tryCands (c :: rest) = some ((validate_tool obj).2) := by
  rw [tryCands.eq_2, h]
  dsimp only
  cases hvt : validate_tool obj with
  | mk b o2 =>
      rw [hvt] at hv
      dsimp only at hv
      rw [hv]

/-- `findIdx?` on a list whose first satisfying element follows a
non-satisfying prefix. -/
theorem findIdx_append_first (p : Char → Bool) (l1 : List Char) (c : Char)
    (rest : List Char) (h1 : ∀ x ∈ l1, p x = false) (hc : p c = true) :
    List.findIdx? p (l1 ++ c :: rest) = some l1.length := by
  induction l1 with
  | nil => simp [List.findIdx?_cons, hc]
  | cons d ds ih =>
      rw [List.cons_append, List.findIdx?_cons,
        if_neg (by rw [h1 d (List.mem_cons_self _ _)]; simp)]
      rw [List.findIdx?_succ, ih (fun x hx => h1 x (List.mem_cons_of_mem _ hx))]
      rfl

/-- The head surviving `dropWhile` fails the predicate and is a member. -/
theorem dropWhile_head_false (p : Char → Bool) (l : List Char) (c : Char)
    (t : List Char) (h : l.dropWhile p = c :: t) : p c = false ∧ c ∈ l := by
  induction l with
  | nil => cases h
  | cons d ds ih =>
      rw [List.dropWhile_cons] at h
      by_cases hd : p d = true
      · rw [if_pos hd] at h
        obtain ⟨h1, h2⟩ := ih h
        exact ⟨h1, List.mem_cons_of_mem _ h2⟩
      · rw [if_neg hd] at h
        injection h with h1 h2
        subst h1
        exact ⟨by simpa using hd, List.mem_cons_self _ _⟩

/-- Right-stripping keeps a non-stripped head. -/
theorem strip_right_keep_head (p : Char → Bool) (c0 : Char) (Z : List Char)
    (h : p c0 = false) :
    ((c0 :: Z).reverse.dropWhile p).reverse
      = c0 :: (Z.reverse.dropWhile p).reverse := by
  rw [List.reverse_cons, dropWhile_append_single p Z.reverse c0 h]
  simp

/-- A character that is not Python whitespace is not JSON whitespace. -/
theorem pyWs_false_jsonWs (c : Char) (h : isPyWs c = false) :
    isJsonWs c = false := by
  cases hj : isJsonWs c with
  | false => rfl
  | true => exact absurd (jsonWs_pyWs c hj) (by simp [h])

/-- C2 (amended): an exact JSON object text that parses to a tool the
Validator accepts is recovered by `parse_tool_json` whenever the
surrounding prose contains no brace characters: the whole-text candidate
either is the object (up to whitespace) or fails, and the
first-brace-to-last-brace slice is then exactly the object. -/
theorem c2_extractor_brace_free_prose (p1 p2 mid : List Char) (o : Value)
    (hp1 : ∀ c ∈ p1, c ≠ '\x7b' ∧ c ≠ '\x7d')
    (hp2 : ∀ c ∈ p2, c ≠ '\x7b' ∧ c ≠ '\x7d')
    (hparse : parseVal (2 * ('\x7b' :: (mid ++ ['\x7d'])).length + 2)
        ('\x7b' :: (mid ++ ['\x7d'])) = some (o, []))
    (hacc : (validate_tool o).1 = true) :
    parse_tool_json ⟨p1 ++ ('\x7b' :: (mid ++ ['\x7d'])) ++ p2⟩
      = some ((validate_tool o).2) := by
  have hobj_vobj : ∃ gs, o = .vObj gs := by
    obtain ⟨gs, hgs⟩ := validate_accept_vObj o hacc
    exact ⟨gs, hgs⟩
  have hjp_obj : jsonParse ⟨'\x7b' :: (mid ++ ['\x7d'])⟩ = some o := by
    rw [jsonParse]
    dsimp only
    rw [hparse]
    rfl
  simp only [parse_tool_json, pyStrip]
  simp only [List.append_assoc, List.singleton_append, List.cons_append,
    List.nil_append]
  -- the containment test on the whole text holds: the object supplies braces
  have hcontains : ((p1 ++ '\x7b' :: (mid ++ '\x7d' :: p2)).contains '\x7b'
      && (p1 ++ '\x7b' :: (mid ++ '\x7d' :: p2)).contains '\x7d') = true := by
    rw [Bool.and_eq_true]
    constructor
    · simp [List.contains]
    · simp [List.contains]
  have hfind : List.findIdx? (fun x => decide (x = '\x7b'))
      (p1 ++ '\x7b' :: (mid ++ '\x7d' :: p2)) = some p1.length :=
    findIdx_append_first _ p1 '\x7b' _
      (fun x hx => by simp [(hp1 x hx).1]) (by simp)
  have hlast : lastIdxOf (p1 ++ '\x7b' :: (mid ++ '\x7d' :: p2)) '\x7d'
      = some (p1.length + (mid.length + 1)) := by
    rw [lastIdxOf]
    have hrev : (p1 ++ '\x7b' :: (mid ++ '\x7d' :: p2)).reverse
        = p2.reverse ++ '\x7d' :: (mid.reverse ++ '\x7b' :: p1.reverse) := by simp
    rw [hrev, findIdx_append_first _ p2.reverse '\x7d' _
      (fun x hx => by simp [(hp2 x (List.mem_reverse.1 hx)).2]) (by simp)]
    rw [Option.map_some']
    congr 1
    simp only [List.length_append, List.length_cons, List.length_reverse]
    omega
  rw [hcontains, if_pos rfl, hfind, hlast]
  dsimp only
  rw [if_pos (by omega)]
  rw [List.drop_left, show p1.length + (mid.length + 1) + 1 - p1.length
    = mid.length + 2 from by omega]
  rw [show mid.length + 2 = mid.length + 1 + 1 from rfl, List.take_succ_cons,
    List.take_append]
  rw [show List.take 1 ('\x7d' :: p2) = ['\x7d'] from by simp]
  simp only [List.singleton_append, List.cons_append]
  -- the whole-text candidate: case split on the surrounding whitespace
  rcases hq1 : p1.dropWhile isPyWs with _ | ⟨c0, q1p⟩
  · -- p1 is pure whitespace
    have hd1 : List.dropWhile isPyWs (p1 ++ '\x7b' :: (mid ++ '\x7d' :: p2))
        = '\x7b' :: (mid ++ '\x7d' :: p2) := by
      rw [dropWhile_append_all _ _ _ hq1, List.dropWhile_cons, if_neg (by decide)]
    rw [hd1]
    have hXrev : ('\x7b' :: (mid ++ '\x7d' :: p2)).reverse
        = p2.reverse ++ '\x7d' :: (mid.reverse ++ ['\x7b']) := by simp
    rcases hq2 : p2.reverse.dropWhile isPyWs with _ | ⟨d0, q2p⟩
    · -- p2 is pure whitespace: the stripped text is exactly the object
      have hstrip : (List.dropWhile isPyWs
          ('\x7b' :: (mid ++ '\x7d' :: p2)).reverse).reverse
          = '\x7b' :: (mid ++ ['\x7d']) := by
        rw [hXrev, dropWhile_append_all _ _ _ hq2, List.dropWhile_cons,
          if_neg (by decide)]
        simp
      rw [hstrip]
      exact tryCands_hit _ _ o hjp_obj hacc
    · -- p2 has trailing prose: the stripped text has junk after the object
      obtain ⟨hd0w, hd0mem⟩ := dropWhile_head_false _ _ _ _ hq2
      have hstrip : (List.dropWhile isPyWs
          ('\x7b' :: (mid ++ '\x7d' :: p2)).reverse).reverse
          = ('\x7b' :: (mid ++ ['\x7d'])) ++ (q2p.reverse ++ [d0]) := by
        rw [hXrev, dropWhile_append_stop _ _ _ _ _ hq2]
        simp
      rw [hstrip]
      have hext := (parse_ext (2 * ('\x7b' :: (mid ++ ['\x7d'])).length + 2)
        (2 * (('\x7b' :: (mid ++ ['\x7d'])) ++ (q2p.reverse ++ [d0])).length + 2)
        (by simp only [List.length_append, List.length_cons]; omega)).1
        ('\x7b' :: (mid ++ ['\x7d'])) o [] (q2p.reverse ++ [d0]) hparse
        (fun _ => Or.inr (fun n hn => by
          obtain ⟨gs, hgs⟩ := hobj_vobj
          rw [hgs] at hn
          cases hn))
      rw [List.nil_append] at hext
      have hjp1 : jsonParse ⟨('\x7b' :: (mid ++ ['\x7d'])) ++ (q2p.reverse ++ [d0])⟩
          = none := by
        rw [jsonParse]
        dsimp only
        rw [hext]
        dsimp only
        have hne := skipWs_ne_nil (q2p.reverse ++ [d0]) d0 (by simp) hd0w
        rw [if_neg (fun hie => hne (List.isEmpty_iff.1 hie))]
      rw [tryCands_skip_parse _ _ hjp1]
      exact tryCands_hit _ _ o hjp_obj hacc
  · -- p1 has leading prose: the stripped text cannot validate as an object
    obtain ⟨hc0w, hc0mem⟩ := dropWhile_head_false _ _ _ _ hq1
    have hd1 : List.dropWhile isPyWs (p1 ++ '\x7b' :: (mid ++ '\x7d' :: p2))
        = c0 :: (q1p ++ '\x7b' :: (mid ++ '\x7d' :: p2)) :=
      dropWhile_append_stop _ _ _ _ _ hq1
    rw [hd1, strip_right_keep_head _ _ _ hc0w]
    cases hjp1 : jsonParse ⟨c0 ::
        ((q1p ++ '\x7b' :: (mid ++ '\x7d' :: p2)).reverse.dropWhile isPyWs).reverse⟩ with
    | none =>
        rw [tryCands_skip_parse _ _ hjp1]
        exact tryCands_hit _ _ o hjp_obj hacc
    | some w =>
        cases hvw : (validate_tool w).1 with
        | false =>
            rw [tryCands_skip_invalid _ _ w hjp1 hvw]
            exact tryCands_hit _ _ o hjp_obj hacc
        | true =>
            exfalso
            obtain ⟨gs, hgs⟩ := validate_accept_vObj w hvw
            subst hgs
            obtain ⟨rr, hrr⟩ := jsonParse_some_inv _ _ hjp1
            dsimp only at hrr
            obtain ⟨r0, hr0⟩ := parseVal_vObj_head _ _ _ _ hrr
            rw [skipWs_cons_not _ _ (pyWs_false_jsonWs _ hc0w)] at hr0
            injection hr0 with h1 h2
            exact absurd h1 (hp1 c0 hc0mem).1

/-- Witness for the amended C2 statement at a concrete prose-wrapped
tool text `Tool: {"action": "click"} ok`. -/
theorem c2_extractor_brace_free_prose_witness :
    (∀ c ∈ ("Tool: " : String).data, c ≠ '\x7b' ∧ c ≠ '\x7d') ∧
    (∀ c ∈ (" ok" : String).data, c ≠ '\x7b' ∧ c ≠ '\x7d') ∧
    parseVal (2 * ('\x7b' :: (("\"action\": \"click\"" : String).data ++ ['\x7d'])).length + 2)
        ('\x7b' :: (("\"action\": \"click\"" : String).data ++ ['\x7d']))
      = some (.vObj [("action", .vStr "click")], []) ∧
    (validate_tool (.vObj [("action", .vStr "click")])).1 = true ∧
    parse_tool_json ⟨("Tool: " : String).data
        ++ ('\x7b' :: (("\"action\": \"click\"" : String).data ++ ['\x7d']))
        ++ (" ok" : String).data⟩
      = some ((validate_tool (.vObj [("action", .vStr "click")])).2) :=
  ⟨by decide, by decide, rfl, by decide,
    c2_extractor_brace_free_prose _ _ _ _ (by decide) (by decide) rfl (by decide)⟩
